import Mathlib

/-!
# JSON_Parser: the lexer and the structural validator of `src/main.cpp`

A shallow embedding of `isWhiteSpace`, `isNumeric`, `isQuote`, `isValidNumber`,
`isValidBoolean`, `isValidNull`, `getNextToken` and `isValidJSON`.

* A `std::string` is a `List Char`; the cursor `size_t pos` is a `Nat` (it never
  exceeds the length of the buffer, so no wrap-around is involved).
* A `char` is a `Char`: the code compares characters with ASCII literals only, so
  neither the width nor the signedness of `char` matters.
* `getNextToken(json, pos)` mutates `pos` through a reference; here it returns the
  token together with the new cursor.
* `std::stack<TokenType>` is a `List TokenType` with the top at the head.
-/

namespace JSONParser

/-! ## Character classifiers (lines 5-15) -/

/-- Line 5: `isWhiteSpace`. -/
def isWhiteSpace (ch : Char) : Bool :=
  ch == ' ' || ch == '\t' || ch == '\n' || ch == '\r'

/-- Line 9: `isNumeric`. -/
def isNumeric (ch : Char) : Bool :=
  decide ('0' ≤ ch) && decide (ch ≤ '9')

/-- Line 13: `isQuote`. -/
def isQuote (ch : Char) : Bool :=
  ch == '"'

/-! ## Tokens (lines 17-34) -/

/-- Lines 17-29: `enum class TokenType`. -/
inductive TokenType where
  | LBRACE
  | RBRACE
  | LBRACKET
  | RBRACKET
  | COLON
  | COMMA
  | STRING
  | NUMBER
  | BOOLEAN
  | NULLVAL
  | INVALID
  deriving DecidableEq

/-- Lines 31-34: `struct Token`; a default-constructed token has the empty text. -/
structure Token where
  type : TokenType
  value : List Char
  deriving DecidableEq

/-! ## Value grammars (lines 36-61) -/

/-- Lines 41-50: the `for (char ch : str)` loop of `isValidNumber`, with the flag
`hasDecimal` as an argument; `true` stands for falling out of the loop to
`return true`. -/
def isValidNumber.loop : List Char → Bool → Bool
  | [], _ => true
  | ch :: rest, hasDecimal =>
    if !isNumeric ch then
      if ch == '.' then
        if hasDecimal then false
        else isValidNumber.loop rest true
      else false
    else isValidNumber.loop rest hasDecimal

/-- Lines 36-53: `isValidNumber`. -/
def isValidNumber (str : List Char) : Bool :=
  if str.isEmpty then false
  else if str.head? == some '0' && decide (str.length > 1) then false
  else isValidNumber.loop str false

/-- Lines 55-57: `isValidBoolean`. -/
def isValidBoolean (str : List Char) : Bool :=
  decide (str = ['t', 'r', 'u', 'e']) || decide (str = ['f', 'a', 'l', 's', 'e'])

/-- Lines 59-61: `isValidNull`. -/
def isValidNull (str : List Char) : Bool :=
  decide (str = ['n', 'u', 'l', 'l'])

/-! ## The lexer (lines 63-138) -/

/-- The loops `while (pos < json.length() && cond(json[pos])) pos++` of lines 67,
100 and 116. The list is the part of the buffer from the cursor on, so it is empty
exactly when `pos < json.length()` fails; the result is the cursor after the loop. -/
def scanWhile (cond : Char → Bool) : List Char → Nat → Nat
  | [], pos => pos
  | ch :: rest, pos => if cond ch then scanWhile cond rest (pos + 1) else pos

/-- The call `json.substr(start, n)`. -/
def substr (json : List Char) (start n : Nat) : List Char :=
  (json.drop start).take n

/-- Line 116: the condition under which the bare-token scan goes on. -/
def bareCont (ch : Char) : Bool :=
  !isWhiteSpace ch && ch != ',' && ch != '}' && ch != ']'

/-- Lines 120-132: the classification of the text of a bare token. -/
def classify (value : List Char) : Token :=
  if isValidNumber value then ⟨.NUMBER, value⟩
  else if isValidBoolean value then ⟨.BOOLEAN, value⟩
  else if isValidNull value then ⟨.NULLVAL, value⟩
  else ⟨.INVALID, []⟩

/-- Lines 63-138: `getNextToken`; the result is the token and the cursor on return.
`json[pos]` is read only after `pos == json.length()` failed. -/
def getNextToken (json : List Char) (pos : Nat) : Token × Nat :=
  let pos := scanWhile isWhiteSpace (json.drop pos) pos
  if pos = json.length then (⟨.INVALID, []⟩, pos)
  else
    let ch := json.getD pos '\x00'
    let pos := pos + 1
    if ch = '{' then (⟨.LBRACE, []⟩, pos)
    else if ch = '}' then (⟨.RBRACE, []⟩, pos)
    else if ch = '[' then (⟨.LBRACKET, []⟩, pos)
    else if ch = ']' then (⟨.RBRACKET, []⟩, pos)
    else if ch = ':' then (⟨.COLON, []⟩, pos)
    else if ch = ',' then (⟨.COMMA, []⟩, pos)
    else if ch = '"' then
      let start := pos
      let pos := scanWhile (fun c => !isQuote c) (json.drop pos) pos
      if pos = json.length then (⟨.INVALID, []⟩, pos)
      else (⟨.STRING, substr json start (pos - start)⟩, pos + 1)
    else
      let start := pos - 1
      let pos := scanWhile bareCont (json.drop pos) pos
      (classify (substr json start (pos - start)), pos)

/-! ## Cursor arithmetic of the lexer

The loop of the validator is defined by recursion on a bound on the iterations that
are left; that the bound goes down with every call of `getNextToken` is the content
of `fuel_step`, which the definition of the loop uses. -/

theorem scanWhile_eq (cond : Char → Bool) :
    ∀ (l : List Char) (pos : Nat), scanWhile cond l pos = pos + (l.takeWhile cond).length := by
  intro l
  induction l with
  | nil => intro pos; simp [scanWhile]
  | cons c l ih =>
    intro pos
    by_cases hc : cond c = true
    · simp [scanWhile, hc, ih, List.takeWhile_cons]; omega
    · simp [scanWhile, hc, List.takeWhile_cons]

theorem scanWhile_ge (cond : Char → Bool) (l : List Char) (pos : Nat) :
    pos ≤ scanWhile cond l pos := by
  rw [scanWhile_eq]; omega

theorem scanWhile_le (cond : Char → Bool) (l : List Char) (pos : Nat) :
    scanWhile cond l pos ≤ pos + l.length := by
  rw [scanWhile_eq]
  have := (List.takeWhile_sublist (l := l) cond).length_le
  omega

theorem scanWhile_drop_le (cond : Char → Bool) (json : List Char) (pos : Nat)
    (h : pos ≤ json.length) : scanWhile cond (json.drop pos) pos ≤ json.length := by
  have := scanWhile_le cond (json.drop pos) pos
  simp only [List.length_drop] at this
  omega

/-- A call with the cursor inside the buffer moves the cursor forward and keeps it
inside the buffer or at its end. -/
theorem getNextToken_cursor (json : List Char) (pos : Nat) (h : pos < json.length) :
    pos < (getNextToken json pos).2 ∧ (getNextToken json pos).2 ≤ json.length := by
  have h1 := scanWhile_ge isWhiteSpace (json.drop pos) pos
  have h2 := scanWhile_drop_le isWhiteSpace json pos (Nat.le_of_lt h)
  unfold getNextToken
  simp only
  split
  · constructor <;> simp only <;> omega
  · rename_i hne
    have h3 : scanWhile isWhiteSpace (json.drop pos) pos + 1 ≤ json.length := by omega
    have h4 := scanWhile_ge (fun c => !isQuote c)
      (json.drop (scanWhile isWhiteSpace (json.drop pos) pos + 1))
      (scanWhile isWhiteSpace (json.drop pos) pos + 1)
    have h5 := scanWhile_drop_le (fun c => !isQuote c) json _ h3
    have h6 := scanWhile_ge bareCont
      (json.drop (scanWhile isWhiteSpace (json.drop pos) pos + 1))
      (scanWhile isWhiteSpace (json.drop pos) pos + 1)
    have h7 := scanWhile_drop_le bareCont json _ h3
    repeat' split
    all_goals (constructor <;> simp only <;> omega)

/-- One iteration of the validator's loop uses up one unit of the bound on the
iterations that are left. -/
theorem fuel_step {json : List Char} {pos fuel : Nat} (h : json.length - pos ≤ fuel + 1)
    (hlt : pos < json.length) : json.length - (getNextToken json pos).2 ≤ fuel := by
  have := (getNextToken_cursor json pos hlt).1
  omega

/-! ## The structural validator (lines 140-162) -/

/-- Lines 144-159: the `while (pos < json.length())` loop of `isValidJSON`, with the
cursor and the stack as arguments (top of the stack at the head). `fuel` bounds the
iterations still to come: each iteration moves the cursor forward, so
`json.length - pos` iterations are always enough, and with `fuel = 0` the loop
condition is false. `false` is an early `return false`; leaving the loop gives
`stack.empty()` (line 161). `stack.top()` is read only when the stack is not
empty. -/
def isValidJSON.loop (json : List Char) :
    (fuel pos : Nat) → List TokenType → json.length - pos ≤ fuel → Bool
  | 0, _, stack, _ => stack.isEmpty
  | fuel + 1, pos, stack, h =>
    if hlt : pos < json.length then
      if (getNextToken json pos).1.type = .INVALID then false
      else if (getNextToken json pos).1.type = .LBRACE
          ∨ (getNextToken json pos).1.type = .LBRACKET then
        isValidJSON.loop json fuel (getNextToken json pos).2
          ((getNextToken json pos).1.type :: stack) (fuel_step h hlt)
      else if (getNextToken json pos).1.type = .RBRACE
          ∨ (getNextToken json pos).1.type = .RBRACKET then
        if stack.isEmpty
            || (stack.head? != some .LBRACE && stack.head? != some .LBRACKET) then false
        else isValidJSON.loop json fuel (getNextToken json pos).2 stack.tail (fuel_step h hlt)
      else isValidJSON.loop json fuel (getNextToken json pos).2 stack (fuel_step h hlt)
    else stack.isEmpty

/-- Lines 140-162: `isValidJSON`. -/
def isValidJSON (json : List Char) : Bool :=
  isValidJSON.loop json json.length 0 [] (Nat.le_refl _)

/-! ## The driver (lines 164-176) -/

/-- Line 166 of `main`: the example payload. The braces of the text are written with
their hexadecimal escapes, 7b and 7d. -/
def mainJson : List Char :=
  "\x7b\"name\":\"John\",\"age\":30,\"city\":\"New York\",\"hobbies\":[\"reading\",\"traveling\",\"cooking\"],\"address\":\x7b\"street\":\"123 Main St\",\"city\":\"New York\",\"country\":\"USA\"\x7d\x7d".toList

/-- Lines 169-173 of `main`: the line the driver prints. -/
def mainOutput : String :=
  if isValidJSON mainJson then "Valid JSON" else "Invalid JSON"

/-! ## Notions used in the statements and proofs

None of these is a function of `src/main.cpp`: they name parts of the functions above
(`lexAt`, `punctType`, `stepStack`, `validFrom`), the token sequence of a buffer
(`tokens`), the indices at which the lexer reads the buffer (`getNextToken.reads`), the
states of the validator's loop (`Reach`), the validator with a depth counter
(`isValidJSONDepth`), and the shapes of input the properties speak about. -/

/-- Lines 71-137 of `getNextToken`: what the lexer does once the white space is
skipped and the cursor stands at `pos`. -/
def lexAt (json : List Char) (pos : Nat) : Token × Nat :=
  if pos = json.length then (⟨.INVALID, []⟩, pos)
  else
    let ch := json.getD pos '\x00'
    let pos := pos + 1
    if ch = '{' then (⟨.LBRACE, []⟩, pos)
    else if ch = '}' then (⟨.RBRACE, []⟩, pos)
    else if ch = '[' then (⟨.LBRACKET, []⟩, pos)
    else if ch = ']' then (⟨.RBRACKET, []⟩, pos)
    else if ch = ':' then (⟨.COLON, []⟩, pos)
    else if ch = ',' then (⟨.COMMA, []⟩, pos)
    else if ch = '"' then
      let start := pos
      let pos := scanWhile (fun c => !isQuote c) (json.drop pos) pos
      if pos = json.length then (⟨.INVALID, []⟩, pos)
      else (⟨.STRING, substr json start (pos - start)⟩, pos + 1)
    else
      let start := pos - 1
      let pos := scanWhile bareCont (json.drop pos) pos
      (classify (substr json start (pos - start)), pos)

/-- The validator's loop started at the head of `suf` with a given stack: what
`isValidJSON` still has to do when `suf` is the unread part of the buffer. -/
def validFrom (suf : List Char) (stack : List TokenType) : Bool :=
  isValidJSON.loop suf suf.length 0 stack (Nat.le_refl _)

/-- The kind of the token a structural character stands for (lines 80-97). -/
def punctType (ch : Char) : Option TokenType :=
  if ch = '{' then some .LBRACE
  else if ch = '}' then some .RBRACE
  else if ch = '[' then some .LBRACKET
  else if ch = ']' then some .RBRACKET
  else if ch = ':' then some .COLON
  else if ch = ',' then some .COMMA
  else none

/-- One call of the lexer at the head of the unread text, by the shape of that text:
`LexStep suf tok rest` says that `suf` starts with white space followed by the text of
the token `tok` and that `rest` is what lies behind it. -/
inductive LexStep : List Char → Token → List Char → Prop where
  | eof (w : List Char) (hw : ∀ c ∈ w, isWhiteSpace c = true) :
      LexStep w ⟨.INVALID, []⟩ []
  | punct (w : List Char) (c : Char) (rest : List Char) (ty : TokenType)
      (hw : ∀ c ∈ w, isWhiteSpace c = true) (hc : punctType c = some ty) :
      LexStep (w ++ c :: rest) ⟨ty, []⟩ rest
  | string (w content rest : List Char) (hw : ∀ c ∈ w, isWhiteSpace c = true)
      (hq : ∀ c ∈ content, c ≠ '"') :
      LexStep (w ++ '"' :: (content ++ '"' :: rest)) ⟨.STRING, content⟩ rest
  | unterminated (w content : List Char) (hw : ∀ c ∈ w, isWhiteSpace c = true)
      (hq : ∀ c ∈ content, c ≠ '"') :
      LexStep (w ++ '"' :: content) ⟨.INVALID, []⟩ []
  | bare (w : List Char) (c : Char) (body rest : List Char)
      (hw : ∀ c ∈ w, isWhiteSpace c = true) (hc : isWhiteSpace c = false)
      (hp : punctType c = none) (hcq : c ≠ '"') (hb : ∀ x ∈ body, bareCont x = true)
      (hr : ∀ d ∈ rest.head?, bareCont d = false) :
      LexStep (w ++ c :: (body ++ rest)) (classify (c :: body)) rest

/-- The effect of one token on the stack (lines 147-158): `none` is `return false`. -/
def stepStack (ty : TokenType) (stack : List TokenType) : Option (List TokenType) :=
  if ty = .INVALID then none
  else if ty = .LBRACE ∨ ty = .LBRACKET then some (ty :: stack)
  else if ty = .RBRACE ∨ ty = .RBRACKET then
    if stack.isEmpty || (stack.head? != some .LBRACE && stack.head? != some .LBRACKET) then none
    else some stack.tail
  else some stack

/-- The tokens that `getNextToken` returns when it is called again and again, from
the cursor `pos` on, until the cursor reaches the end of the buffer. `fuel` bounds
the calls still to come, as in `isValidJSON.loop`. -/
def tokensFrom (json : List Char) : (fuel pos : Nat) → json.length - pos ≤ fuel → List Token
  | 0, _, _ => []
  | fuel + 1, pos, h =>
    if hlt : pos < json.length then
      (getNextToken json pos).1
        :: tokensFrom json fuel (getNextToken json pos).2 (fuel_step h hlt)
    else []

/-- The token sequence of a buffer: the calls start at cursor 0. -/
def tokens (json : List Char) : List Token :=
  tokensFrom json json.length 0 (Nat.le_refl _)

/-- A token that opens a structure. -/
def isOpener (t : Token) : Bool :=
  decide (t.type = .LBRACE ∨ t.type = .LBRACKET)

/-- A token that closes a structure. -/
def isCloser (t : Token) : Bool :=
  decide (t.type = .RBRACE ∨ t.type = .RBRACKET)

/-- The validator run on a list of tokens instead of a buffer. -/
def runTokens : List Token → List TokenType → Bool
  | [], stack => stack.isEmpty
  | t :: ts, stack =>
    match stepStack t.type stack with
    | none => false
    | some stack' => runTokens ts stack'

/-- A character that occurs in the text of some valid bare token: a digit, a dot or
a letter of `true`, `false`, `null`. -/
def isValueChar (c : Char) : Bool :=
  isNumeric c || c == '.' || ['t', 'r', 'u', 'e', 'f', 'a', 'l', 's', 'n'].contains c

/-- The text of a valid bare token (lines 121-129). -/
def isValueText (v : List Char) : Prop :=
  isValidNumber v = true ∨ v = ['t', 'r', 'u', 'e'] ∨ v = ['f', 'a', 'l', 's', 'e']
    ∨ v = ['n', 'u', 'l', 'l']

/-- The characters `{` and `[`. -/
def isOpenChar (c : Char) : Bool := c == '{' || c == '['

/-- The characters `}` and `]`. -/
def isCloseChar (c : Char) : Bool := c == '}' || c == ']'

/-- What the validator looks at in a token kind: 0 for `INVALID`, 1 for an opener,
2 for a closer, 3 for everything else. -/
def tokenClass : TokenType → Nat
  | .INVALID => 0
  | .LBRACE => 1
  | .LBRACKET => 1
  | .RBRACE => 2
  | .RBRACKET => 2
  | _ => 3

/-- Two stacks of openers of the same height. -/
def SameDepth (s₁ s₂ : List TokenType) : Prop :=
  s₁.length = s₂.length ∧ (∀ x ∈ s₁, x = .LBRACE ∨ x = .LBRACKET)
    ∧ (∀ x ∈ s₂, x = .LBRACE ∨ x = .LBRACKET)

/-- A character-wise replacement that maps openers to openers and closers to closers
and leaves every other character alone. -/
def BracketMap (f : Char → Char) : Prop :=
  (∀ c, isOpenChar c = true → isOpenChar (f c) = true) ∧
  (∀ c, isCloseChar c = true → isCloseChar (f c) = true) ∧
  (∀ c, isOpenChar c = false → isCloseChar c = false → f c = c)

/-- The replacement that swaps `{` with `[` and `}` with `]`. -/
def swapBrackets (c : Char) : Char :=
  if c = '{' then '['
  else if c = '[' then '{'
  else if c = '}' then ']'
  else if c = ']' then '}'
  else c

/-- The text of one token as the writer of a document means it: a structural
character, a quoted string, or a bare token. -/
inductive Piece where
  | punct (c : Char)
  | str (content : List Char)
  | bare (text : List Char)

/-- The characters a piece stands for. -/
def Piece.text : Piece → List Char
  | .punct c => [c]
  | .str content => '"' :: (content ++ ['"'])
  | .bare text => text

/-- An individually well-formed token text: one of the six structural characters, a
quoted string whose content holds no quote, or a bare token that is a valid number
or one of `true`, `false`, `null`. -/
def Piece.WellFormed : Piece → Prop
  | .punct c => c = '{' ∨ c = '}' ∨ c = '[' ∨ c = ']' ∨ c = ':' ∨ c = ','
  | .str content => '"' ∉ content
  | .bare text =>
    isValidNumber text = true ∨ text = ['t', 'r', 'u', 'e'] ∨ text = ['f', 'a', 'l', 's', 'e']
      ∨ text = ['n', 'u', 'l', 'l']

/-- The piece is `{` or `[`. -/
def Piece.isOpener : Piece → Bool
  | .punct c => isOpenChar c
  | _ => false

/-- The piece is `}` or `]`. -/
def Piece.isCloser : Piece → Bool
  | .punct c => isCloseChar c
  | _ => false

/-- The piece is a bare token. -/
def Piece.isBare : Piece → Bool
  | .bare _ => true
  | _ => false

/-- The document written from a list of pieces, each with the white space that
stands in front of it; nothing follows the last piece. -/
def render : List (List Char × Piece) → List Char
  | [] => []
  | x :: ps => x.1 ++ (x.2.text ++ render ps)

/-- Every bare piece is followed at once by white space, `,`, `}`, `]` or the end of
the document. -/
def BareFollowed : List (List Char × Piece) → Prop
  | [] => True
  | x :: ps =>
    (x.2.isBare = true →
      ∀ d ∈ (render ps).head?, isWhiteSpace d = true ∨ d = ',' ∨ d = '}' ∨ d = ']')
    ∧ BareFollowed ps

/-- The indices at which a loop `while (pos < json.length() && cond(json[pos])) pos++`
reads `json`. The list is the part of the buffer from the cursor on, as in `scanWhile`:
`json[pos]` is read only after `pos < json.length()` held, and the loop ends with the
first character that fails `cond`. -/
def scanReads (cond : Char → Bool) : List Char → Nat → List Nat
  | [], _ => []
  | ch :: rest, pos => pos :: (if cond ch then scanReads cond rest (pos + 1) else [])

/-- The indices at which `getNextToken(json, pos)` reads `json`: the three loops, the
read `json[pos]` of line 76, and the characters that `substr` copies (lines 110, 120). -/
def getNextToken.reads (json : List Char) (pos : Nat) : List Nat :=
  let skipped := scanReads isWhiteSpace (json.drop pos) pos
  let pos := scanWhile isWhiteSpace (json.drop pos) pos
  if pos = json.length then skipped
  else
    let ch := json.getD pos '\x00'
    let first := skipped ++ [pos]
    let pos := pos + 1
    if ch = '{' ∨ ch = '}' ∨ ch = '[' ∨ ch = ']' ∨ ch = ':' ∨ ch = ',' then first
    else if ch = '"' then
      let start := pos
      let scanned := scanReads (fun c => !isQuote c) (json.drop pos) pos
      let pos := scanWhile (fun c => !isQuote c) (json.drop pos) pos
      if pos = json.length then first ++ scanned
      else first ++ scanned ++ List.range' start (pos - start)
    else
      let start := pos - 1
      let scanned := scanReads bareCont (json.drop pos) pos
      let pos := scanWhile bareCont (json.drop pos) pos
      first ++ scanned ++ List.range' start (pos - start)

/-- The first character at or after the cursor `p` that is not white space stands at
index `i` and is `c`. -/
def FirstNonWs (s : List Char) (p i : Nat) (c : Char) : Prop :=
  p ≤ i ∧ s[i]? = some c ∧ isWhiteSpace c = false ∧
    ∀ k d, p ≤ k → k < i → s[k]? = some d → isWhiteSpace d = true

/-- The states the loop of `isValidJSON` passes through on `json`: the cursor, the
stack, and the tokens read so far. `start` is the state before the first iteration
(lines 141-143); the other constructors are the three ways in which one iteration goes
on to the next (lines 151-152, 153-157, and neither). -/
inductive Reach (json : List Char) : Nat → List TokenType → List Token → Prop where
  | start : Reach json 0 [] []
  | push (pos : Nat) (stack : List TokenType) (hist : List Token) :
      Reach json pos stack hist → pos < json.length →
      ((getNextToken json pos).1.type = .LBRACE ∨ (getNextToken json pos).1.type = .LBRACKET) →
      Reach json (getNextToken json pos).2 ((getNextToken json pos).1.type :: stack)
        (hist ++ [(getNextToken json pos).1])
  | pop (pos : Nat) (stack : List TokenType) (hist : List Token) :
      Reach json pos stack hist → pos < json.length →
      ((getNextToken json pos).1.type = .RBRACE ∨ (getNextToken json pos).1.type = .RBRACKET) →
      (stack.isEmpty || (stack.head? != some .LBRACE && stack.head? != some .LBRACKET)) = false →
      Reach json (getNextToken json pos).2 stack.tail (hist ++ [(getNextToken json pos).1])
  | other (pos : Nat) (stack : List TokenType) (hist : List Token) :
      Reach json pos stack hist → pos < json.length →
      (getNextToken json pos).1.type ≠ .INVALID →
      ¬ ((getNextToken json pos).1.type = .LBRACE ∨ (getNextToken json pos).1.type = .LBRACKET) →
      ¬ ((getNextToken json pos).1.type = .RBRACE ∨ (getNextToken json pos).1.type = .RBRACKET) →
      Reach json (getNextToken json pos).2 stack (hist ++ [(getNextToken json pos).1])

/-- The kinds of the opener tokens of `hist` that no later closer of `hist` has
popped, the latest first: every opener is put on top, every closer takes the top one
away. -/
def openersLeft (hist : List Token) : List TokenType :=
  hist.foldl
    (fun acc t => if isOpener t then t.type :: acc else if isCloser t then acc.tail else acc) []

/-- The loop of the variant validator that keeps a natural number `d` in place of the
stack: an opener increments `d`, a closer returns false when `d = 0` and decrements `d`
otherwise, an `INVALID` token returns false, and leaving the loop gives `d = 0`. The
cursor and `fuel` are as in `isValidJSON.loop`. -/
def isValidJSONDepth.loop (json : List Char) :
    (fuel pos d : Nat) → json.length - pos ≤ fuel → Bool
  | 0, _, d, _ => decide (d = 0)
  | fuel + 1, pos, d, h =>
    if hlt : pos < json.length then
      if (getNextToken json pos).1.type = .INVALID then false
      else if (getNextToken json pos).1.type = .LBRACE
          ∨ (getNextToken json pos).1.type = .LBRACKET then
        isValidJSONDepth.loop json fuel (getNextToken json pos).2 (d + 1) (fuel_step h hlt)
      else if (getNextToken json pos).1.type = .RBRACE
          ∨ (getNextToken json pos).1.type = .RBRACKET then
        if d = 0 then false
        else isValidJSONDepth.loop json fuel (getNextToken json pos).2 (d - 1) (fuel_step h hlt)
      else isValidJSONDepth.loop json fuel (getNextToken json pos).2 d (fuel_step h hlt)
    else decide (d = 0)

/-- The variant validator: the depth starts at 0 and the cursor at 0. -/
def isValidJSONDepth (json : List Char) : Bool :=
  isValidJSONDepth.loop json json.length 0 0 (Nat.le_refl _)

/-! ## The number grammar -/

theorem isNumeric_iff (c : Char) : isNumeric c = true ↔ ('0' ≤ c ∧ c ≤ '9') := by
  simp [isNumeric]

theorem isNumeric_ne_dot (c : Char) (h : isNumeric c = true) : c ≠ '.' := by
  rintro rfl
  revert h
  decide

theorem isValidNumber_loop_iff : ∀ (l : List Char) (hd : Bool),
    isValidNumber.loop l hd = true ↔
      (∀ c ∈ l, ('0' ≤ c ∧ c ≤ '9') ∨ c = '.') ∧ l.count '.' + (if hd then 1 else 0) ≤ 1 := by
  intro l
  induction l with
  | nil => intro hd; cases hd <;> simp [isValidNumber.loop]
  | cons c l ih =>
    intro hd
    by_cases hn : isNumeric c = true
    · have hne := isNumeric_ne_dot c hn
      have hd' := (isNumeric_iff c).1 hn
      simp [isValidNumber.loop, hn, ih, List.count_cons, hne, hd']
    · have hd' : ¬ ('0' ≤ c ∧ c ≤ '9') := fun h => hn ((isNumeric_iff c).2 h)
      by_cases hdot : c = '.'
      · subst hdot
        cases hd
        · simp [isValidNumber.loop, hn, ih, List.count_cons]
        · simp [isValidNumber.loop, hn, List.count_cons]
      · simp [isValidNumber.loop, hn, hdot, hd']

/-- The grammar that `isValidNumber` accepts. -/
theorem isValidNumber_iff (v : List Char) :
    isValidNumber v = true ↔
      v ≠ [] ∧ (v.head? = some '0' → v = ['0']) ∧
        (∀ c ∈ v, ('0' ≤ c ∧ c ≤ '9') ∨ c = '.') ∧ v.count '.' ≤ 1 := by
  cases v with
  | nil => simp [isValidNumber]
  | cons c l =>
    by_cases h0 : c = '0'
    · subst h0
      cases l with
      | nil => decide
      | cons d l => simp [isValidNumber]
    · simp [isValidNumber, h0, isValidNumber_loop_iff]

theorem isValidNumber_false_of_mem (v : List Char) (c : Char) (hc : c ∈ v)
    (hbad : ¬ (('0' ≤ c ∧ c ≤ '9') ∨ c = '.')) : isValidNumber v = false := by
  cases h : isValidNumber v with
  | false => rfl
  | true => exact absurd (((isValidNumber_iff v).1 h).2.2.1 c hc) hbad

/-- C8: `isValidNumber v` holds exactly when `v` is not empty, `v` starts with `0`
only if it is the one character `0`, every character of `v` is a digit or a dot, and
`v` holds at most one dot. -/
theorem isValidNumber_grammar (v : List Char) :
    isValidNumber v = true ↔
      v ≠ [] ∧ (v.head? = some '0' → v = ['0']) ∧
        (∀ c ∈ v, ('0' ≤ c ∧ c ≤ '9') ∨ c = '.') ∧ v.count '.' ≤ 1 :=
  isValidNumber_iff v

/-- C9 as stated fails: the one-character string `.` is not empty, is made of dots
only, and `isValidNumber` accepts it. -/
theorem isValidNumber_dot_accepted :
    (['.'] : List Char) ≠ [] ∧ (∀ c ∈ (['.'] : List Char), c = '.') ∧
      isValidNumber ['.'] = true := by
  decide

/-- C9 amended: `isValidNumber` rejects every string that holds `-`, `+`, `e` or `E`,
and every string of two or more characters that are all dots; the string `.` alone is
accepted. -/
theorem isValidNumber_rejects_signs_exponents_dots (v : List Char)
    (h : ('-' ∈ v ∨ '+' ∈ v ∨ 'e' ∈ v ∨ 'E' ∈ v) ∨ (2 ≤ v.length ∧ ∀ c ∈ v, c = '.')) :
    isValidNumber v = false ∧ isValidNumber ['.'] = true := by
  refine ⟨?_, by decide⟩
  rcases h with h | ⟨hlen, hdots⟩
  · rcases h with h | h | h | h
    · exact isValidNumber_false_of_mem v _ h (by decide)
    · exact isValidNumber_false_of_mem v _ h (by decide)
    · exact isValidNumber_false_of_mem v _ h (by decide)
    · exact isValidNumber_false_of_mem v _ h (by decide)
  · cases hv : isValidNumber v with
    | false => rfl
    | true =>
      have hcount := ((isValidNumber_iff v).1 hv).2.2.2
      have : v.count '.' = v.length := by
        rw [List.count_eq_length]
        intro c hc
        exact (hdots c hc).symm
      omega

/-- C9 amended, at the strings `-5` and `..`. -/
theorem isValidNumber_rejects_signs_exponents_dots_witness :
    ((('-' ∈ ['-', '5'] ∨ '+' ∈ ['-', '5'] ∨ 'e' ∈ ['-', '5'] ∨ 'E' ∈ ['-', '5']) ∨
        (2 ≤ ['-', '5'].length ∧ ∀ c ∈ ['-', '5'], c = '.')) ∧
      isValidNumber ['-', '5'] = false) ∧
    ((('-' ∈ ['.', '.'] ∨ '+' ∈ ['.', '.'] ∨ 'e' ∈ ['.', '.'] ∨ 'E' ∈ ['.', '.']) ∨
        (2 ≤ ['.', '.'].length ∧ ∀ c ∈ ['.', '.'], c = '.')) ∧
      isValidNumber ['.', '.'] = false) :=
  ⟨⟨by decide, (isValidNumber_rejects_signs_exponents_dots ['-', '5'] (by decide)).1⟩,
    ⟨by decide, (isValidNumber_rejects_signs_exponents_dots ['.', '.'] (by decide)).1⟩⟩

/-! ## The lexer reads only the text from the cursor on -/

theorem scanWhile_shift (cond : Char → Bool) (l : List Char) (a p : Nat) :
    scanWhile cond l (a + p) = a + scanWhile cond l p := by
  simp only [scanWhile_eq]; omega

theorem substr_append_shift (pre suf : List Char) (s n : Nat) :
    substr (pre ++ suf) (pre.length + s) n = substr suf s n := by
  simp [substr, List.drop_append]

theorem getD_append_shift (pre suf : List Char) (p : Nat) (d : Char) :
    (pre ++ suf).getD (pre.length + p) d = suf.getD p d := by
  rw [List.getD_append_right _ _ _ _ (by omega)]
  congr 1
  omega

theorem getNextToken_eq_lexAt (json : List Char) (pos : Nat) :
    getNextToken json pos = lexAt json (scanWhile isWhiteSpace (json.drop pos) pos) := rfl

theorem lexAt_append_shift (pre suf : List Char) (q : Nat) :
    lexAt (pre ++ suf) (pre.length + q) = ((lexAt suf q).1, pre.length + (lexAt suf q).2) := by
  have e1 : ∀ x : Nat, (pre.length + x = (pre ++ suf).length) = (x = suf.length) := by
    intro x; simp only [List.length_append, eq_iff_iff]; omega
  have e5 : ∀ (cond : Char → Bool),
      scanWhile cond ((pre ++ suf).drop (pre.length + q + 1)) (pre.length + q + 1)
        = pre.length + scanWhile cond (suf.drop (q + 1)) (q + 1) := by
    intro cond
    rw [Nat.add_assoc, List.drop_append, scanWhile_shift]
  have e6 : pre.length + q + 1 - 1 = pre.length + (q + 1 - 1) := by omega
  have e7 : ∀ x : Nat, pre.length + x - (pre.length + q + 1) = x - (q + 1) := by intro x; omega
  have e8 : ∀ x : Nat, pre.length + x - (pre.length + (q + 1 - 1)) = x - (q + 1 - 1) := by
    intro x; omega
  unfold lexAt
  simp only [e1, e5, e6, e7, e8, getD_append_shift]
  have e9 : substr (pre ++ suf) (pre.length + q + 1) = substr suf (q + 1) := by
    funext n; rw [Nat.add_assoc, substr_append_shift]
  simp only [e9, substr_append_shift]
  by_cases h0 : q = suf.length
  · simp only [h0, ↓reduceIte]
  simp only [h0, ↓reduceIte]
  by_cases h1 : suf.getD q '\x00' = '{'
  · simp only [h1, ↓reduceIte, Nat.add_assoc]
  simp only [h1, ↓reduceIte]
  by_cases h2 : suf.getD q '\x00' = '}'
  · simp only [h2, ↓reduceIte, Nat.add_assoc]
  simp only [h2, ↓reduceIte]
  by_cases h3 : suf.getD q '\x00' = '['
  · simp only [h3, ↓reduceIte, Nat.add_assoc]
  simp only [h3, ↓reduceIte]
  by_cases h4 : suf.getD q '\x00' = ']'
  · simp only [h4, ↓reduceIte, Nat.add_assoc]
  simp only [h4, ↓reduceIte]
  by_cases h5 : suf.getD q '\x00' = ':'
  · simp only [h5, ↓reduceIte, Nat.add_assoc]
  simp only [h5, ↓reduceIte]
  by_cases h6 : suf.getD q '\x00' = ','
  · simp only [h6, ↓reduceIte, Nat.add_assoc]
  simp only [h6, ↓reduceIte]
  by_cases h7 : suf.getD q '\x00' = '"'
  · simp only [h7, ↓reduceIte]
    by_cases h8 : scanWhile (fun c => !isQuote c) (List.drop (q + 1) suf) (q + 1) = suf.length
    · simp only [h8, ↓reduceIte]
    · simp only [h8, ↓reduceIte, Nat.add_assoc]
  · simp only [h7, ↓reduceIte]

/-- The lexer looks only at the part of the buffer from the cursor on. -/
theorem getNextToken_append_shift (pre suf : List Char) (p : Nat) :
    getNextToken (pre ++ suf) (pre.length + p)
      = ((getNextToken suf p).1, pre.length + (getNextToken suf p).2) := by
  rw [getNextToken_eq_lexAt, getNextToken_eq_lexAt, List.drop_append, scanWhile_shift,
    lexAt_append_shift]

/-! ## The validator on the unread text -/

theorem loop_fuel_irrel (json : List Char) :
    ∀ (fuel fuel' pos : Nat) (stack : List TokenType) (h : json.length - pos ≤ fuel)
      (h' : json.length - pos ≤ fuel'),
      isValidJSON.loop json fuel pos stack h = isValidJSON.loop json fuel' pos stack h' := by
  intro fuel
  induction fuel with
  | zero =>
    intro fuel' pos stack h h'
    cases fuel' with
    | zero => rfl
    | succ n =>
      have hlt : ¬ pos < json.length := by omega
      simp only [isValidJSON.loop, hlt, ↓reduceDIte]
  | succ n ih =>
    intro fuel' pos stack h h'
    cases fuel' with
    | zero =>
      have hlt : ¬ pos < json.length := by omega
      simp only [isValidJSON.loop, hlt, ↓reduceDIte]
    | succ m =>
      by_cases hlt : pos < json.length
      · simp only [isValidJSON.loop, hlt, ↓reduceDIte]
        split_ifs <;> first | rfl | exact ih _ _ _ _ _
      · simp only [isValidJSON.loop, hlt, ↓reduceDIte]

theorem loop_append_shift (pre suf : List Char) :
    ∀ (fuel p : Nat) (stack : List TokenType) (h : (pre ++ suf).length - (pre.length + p) ≤ fuel)
      (h' : suf.length - p ≤ fuel),
      isValidJSON.loop (pre ++ suf) fuel (pre.length + p) stack h
        = isValidJSON.loop suf fuel p stack h' := by
  intro fuel
  induction fuel with
  | zero => intro p stack h h'; rfl
  | succ n ih =>
    intro p stack h h'
    by_cases hlt : p < suf.length
    · have hlt' : pre.length + p < (pre ++ suf).length := by
        simp only [List.length_append]; omega
      simp only [isValidJSON.loop, hlt, hlt', ↓reduceDIte, getNextToken_append_shift]
      split_ifs <;> first | rfl | exact ih _ _ _ _
    · have hlt' : ¬ pre.length + p < (pre ++ suf).length := by
        simp only [List.length_append]; omega
      simp only [isValidJSON.loop, hlt, hlt', ↓reduceDIte]

theorem isValidJSON_eq_validFrom (json : List Char) : isValidJSON json = validFrom json [] := rfl

theorem validFrom_nil (stack : List TokenType) : validFrom [] stack = stack.isEmpty := rfl

/-- One iteration of the loop, seen from the unread part of the buffer. -/
theorem validFrom_step (suf : List Char) (stack : List TokenType) (hne : suf ≠ []) :
    validFrom suf stack =
      if (getNextToken suf 0).1.type = .INVALID then false
      else if (getNextToken suf 0).1.type = .LBRACE ∨ (getNextToken suf 0).1.type = .LBRACKET then
        validFrom (suf.drop (getNextToken suf 0).2) ((getNextToken suf 0).1.type :: stack)
      else if (getNextToken suf 0).1.type = .RBRACE ∨ (getNextToken suf 0).1.type = .RBRACKET then
        if stack.isEmpty || (stack.head? != some .LBRACE && stack.head? != some .LBRACKET) then false
        else validFrom (suf.drop (getNextToken suf 0).2) stack.tail
      else validFrom (suf.drop (getNextToken suf 0).2) stack := by
  have hpos : 0 < suf.length := List.length_pos.2 hne
  obtain ⟨n, hn⟩ : ∃ n, suf.length = n + 1 := ⟨suf.length - 1, by omega⟩
  have hcur := getNextToken_cursor suf 0 hpos
  have key : ∀ st : List TokenType, ∀ h,
      isValidJSON.loop suf n (getNextToken suf 0).2 st h
        = validFrom (suf.drop (getNextToken suf 0).2) st := by
    intro st h
    have hsplit : suf = suf.take (getNextToken suf 0).2 ++ suf.drop (getNextToken suf 0).2 :=
      (List.take_append_drop _ _).symm
    have hlen : (suf.take (getNextToken suf 0).2).length = (getNextToken suf 0).2 := by
      rw [List.length_take]; omega
    have h1 := loop_append_shift (suf.take (getNextToken suf 0).2)
      (suf.drop (getNextToken suf 0).2) n 0 st
      (by simp only [List.take_append_drop]; omega) (by simp only [List.length_drop]; omega)
    simp only [List.take_append_drop, hlen, Nat.add_zero] at h1
    rw [h1]
    exact loop_fuel_irrel _ _ _ _ _ _ _
  unfold validFrom
  have e : isValidJSON.loop suf suf.length 0 stack (Nat.le_refl _)
      = isValidJSON.loop suf (n + 1) 0 stack (by omega) := loop_fuel_irrel _ _ _ _ _ _ _
  rw [e]
  simp only [isValidJSON.loop, hpos, ↓reduceDIte, key]
  rfl

/-! ## The shapes of the text at the cursor -/

theorem scanWhile_all (cond : Char → Bool) (w rest : List Char) (pos : Nat)
    (hw : ∀ c ∈ w, cond c = true) (hr : ∀ d ∈ rest.head?, cond d = false) :
    scanWhile cond (w ++ rest) pos = pos + w.length := by
  rw [scanWhile_eq, List.takeWhile_append_of_pos hw]
  cases rest with
  | nil => simp
  | cons d rest =>
    have : cond d = false := hr d (by simp)
    simp [List.takeWhile_cons, this]

theorem getNextToken_skip (w suf : List Char) (hw : ∀ c ∈ w, isWhiteSpace c = true) :
    getNextToken (w ++ suf) 0 = ((getNextToken suf 0).1, w.length + (getNextToken suf 0).2) := by
  have h := getNextToken_append_shift w suf 0
  rw [← h, getNextToken_eq_lexAt, getNextToken_eq_lexAt]
  congr 1
  simp only [scanWhile_eq, List.drop_zero, Nat.add_zero, List.drop_left,
    List.takeWhile_append_of_pos hw, List.length_append, Nat.zero_add]

theorem getNextToken_nil : getNextToken [] 0 = (⟨.INVALID, []⟩, 0) := rfl

theorem lexAt_zero_cons (c : Char) (tl : List Char) :
    lexAt (c :: tl) 0 =
      match punctType c with
      | some ty => (⟨ty, []⟩, 1)
      | none =>
        if c = '"' then
          if scanWhile (fun c => !isQuote c) tl 1 = tl.length + 1 then
            (⟨.INVALID, []⟩, scanWhile (fun c => !isQuote c) tl 1)
          else (⟨.STRING, tl.take (scanWhile (fun c => !isQuote c) tl 1 - 1)⟩,
            scanWhile (fun c => !isQuote c) tl 1 + 1)
        else (classify ((c :: tl).take (scanWhile bareCont tl 1)), scanWhile bareCont tl 1) := by
  simp only [lexAt, punctType, List.length_cons, List.getD_cons_zero, Nat.zero_add,
    List.drop_succ_cons, List.drop_zero, substr, Nat.sub_self, Nat.sub_zero]
  have h0 : ¬ (0 = tl.length + 1) := by omega
  simp only [h0, ↓reduceIte]
  split_ifs <;> rfl

theorem getNextToken_cons (c : Char) (tl : List Char) (hc : isWhiteSpace c = false) :
    getNextToken (c :: tl) 0 = lexAt (c :: tl) 0 := by
  rw [getNextToken_eq_lexAt]
  simp [scanWhile, hc]

theorem punctType_not_ws (c : Char) (ty : TokenType) (h : punctType c = some ty) :
    isWhiteSpace c = false := by
  unfold punctType at h
  split_ifs at h <;> subst_vars <;> rfl

theorem notQuote_iff (c : Char) : (!isQuote c) = true ↔ c ≠ '"' := by
  simp [isQuote]

theorem lexStep_sound {suf : List Char} {tok : Token} {rest : List Char}
    (h : LexStep suf tok rest) :
    getNextToken suf 0 = (tok, suf.length - rest.length) := by
  induction h with
  | eof w hw =>
    have := getNextToken_skip w [] hw
    simp only [List.append_nil, getNextToken_nil] at this
    simpa using this
  | punct w c rest ty hw hc =>
    rw [getNextToken_skip w _ hw, getNextToken_cons c rest (punctType_not_ws c ty hc),
      lexAt_zero_cons, hc]
    simp only [List.length_append, List.length_cons]
    congr 1
    omega
  | string w content rest hw hq =>
    have hs : scanWhile (fun c => !isQuote c) (content ++ '"' :: rest) 1 = 1 + content.length :=
      scanWhile_all _ content _ 1 (fun c hc => (notQuote_iff c).2 (hq c hc))
        (by simp [isQuote])
    rw [getNextToken_skip w _ hw, getNextToken_cons _ _ (by decide), lexAt_zero_cons]
    have hp : punctType '"' = none := by decide
    simp only [hp, hs, ↓reduceIte, List.length_append, List.length_cons]
    have hne : ¬ (1 + content.length = content.length + (rest.length + 1) + 1) := by omega
    simp only [hne, ↓reduceIte, Nat.add_sub_cancel_left, List.take_left]
    congr 1
    omega
  | unterminated w content hw hq =>
    have hs : scanWhile (fun c => !isQuote c) (content ++ []) 1 = 1 + content.length :=
      scanWhile_all _ content _ 1 (fun c hc => (notQuote_iff c).2 (hq c hc)) (by simp)
    rw [List.append_nil] at hs
    rw [getNextToken_skip w _ hw, getNextToken_cons _ _ (by decide), lexAt_zero_cons]
    have hp : punctType '"' = none := by decide
    simp only [hp, hs, ↓reduceIte, List.length_append, List.length_cons, List.length_nil]
    have he : (1 + content.length = content.length + 1) := by omega
    simp only [he, ↓reduceIte]
    congr 1
  | bare w c body rest hw hc hp hcq hb hr =>
    have hs : scanWhile bareCont (body ++ rest) 1 = 1 + body.length :=
      scanWhile_all _ body _ 1 hb hr
    rw [getNextToken_skip w _ hw, getNextToken_cons _ _ hc, lexAt_zero_cons]
    simp only [hp, hcq, hs, ↓reduceIte, List.length_append, List.length_cons]
    have ht : List.take (1 + body.length) (c :: (body ++ rest)) = c :: body := by
      rw [Nat.add_comm, List.take_succ_cons, List.take_left]
    rw [ht]
    congr 1
    omega

theorem span_decomp (p : Char → Bool) (l : List Char) :
    ∃ w r, l = w ++ r ∧ (∀ c ∈ w, p c = true) ∧ (∀ d ∈ r.head?, p d = false) := by
  induction l with
  | nil => exact ⟨[], [], rfl, by simp, by simp⟩
  | cons a l ih =>
    by_cases ha : p a = true
    · obtain ⟨w, r, hl, hw, hr⟩ := ih
      refine ⟨a :: w, r, by rw [hl]; rfl, ?_, hr⟩
      intro c hc
      rcases List.mem_cons.1 hc with rfl | hc
      · exact ha
      · exact hw c hc
    · refine ⟨[], a :: l, rfl, by simp, ?_⟩
      intro d hd
      simp only [List.head?_cons, Option.mem_def, Option.some.injEq] at hd
      subst hd
      simpa using ha

/-- Every unread text has one of the five shapes. -/
theorem lexStep_total (suf : List Char) : ∃ tok rest, LexStep suf tok rest := by
  obtain ⟨w, r, hsuf, hw, hr⟩ := span_decomp isWhiteSpace suf
  subst hsuf
  cases r with
  | nil => exact ⟨_, _, by simpa using LexStep.eof w hw⟩
  | cons c tl =>
    have hc : isWhiteSpace c = false := hr c (by simp)
    cases hp : punctType c with
    | some ty => exact ⟨_, _, LexStep.punct w c tl ty hw hp⟩
    | none =>
      by_cases hq : c = '"'
      · subst hq
        obtain ⟨content, r', htl, hcont, hr'⟩ := span_decomp (fun c => !isQuote c) tl
        subst htl
        have hcont' : ∀ c ∈ content, c ≠ '"' := fun c hc => (notQuote_iff c).1 (hcont c hc)
        cases r' with
        | nil => exact ⟨_, _, by simpa using LexStep.unterminated w content hw hcont'⟩
        | cons d rest =>
          have hd : d = '"' := by
            have := hr' d (by simp)
            simpa [isQuote] using this
          subst hd
          exact ⟨_, _, LexStep.string w content rest hw hcont'⟩
      · obtain ⟨body, rest, htl, hb, hrest⟩ := span_decomp bareCont tl
        subst htl
        exact ⟨_, _, LexStep.bare w c body rest hw hc hp hq hb hrest⟩

theorem lexStep_rest_suffix {suf : List Char} {tok : Token} {rest : List Char}
    (h : LexStep suf tok rest) : suf.drop (suf.length - rest.length) = rest := by
  have key : ∀ (a b : List Char), (a ++ b).drop ((a ++ b).length - b.length) = b := by
    intro a b
    simp
  induction h with
  | eof w hw => simp
  | punct w c rest ty hw hc =>
    have := key (w ++ [c]) rest
    simpa using this
  | string w content rest hw hq =>
    have := key (w ++ '"' :: (content ++ ['"'])) rest
    simpa using this
  | unterminated w content hw hq => simp
  | bare w c body rest hw hc hp hcq hb hr =>
    have := key (w ++ c :: body) rest
    simpa using this

theorem lexStep_rest_length {suf : List Char} {tok : Token} {rest : List Char}
    (h : LexStep suf tok rest) (hne : suf ≠ []) : rest.length < suf.length := by
  induction h with
  | eof w hw => exact List.length_pos.2 hne
  | punct w c rest ty hw hc => simp only [List.length_append, List.length_cons]; omega
  | string w content rest hw hq => simp only [List.length_append, List.length_cons]; omega
  | unterminated w content hw hq => simp only [List.length_append, List.length_cons, List.length_nil]; omega
  | bare w c body rest hw hc hp hcq hb hr => simp only [List.length_append, List.length_cons]; omega

theorem validFrom_lexStep {suf : List Char} {tok : Token} {rest : List Char}
    (h : LexStep suf tok rest) (hne : suf ≠ []) (stack : List TokenType) :
    validFrom suf stack =
      match stepStack tok.type stack with
      | none => false
      | some stack' => validFrom rest stack' := by
  rw [validFrom_step suf stack hne, lexStep_sound h]
  simp only [lexStep_rest_suffix h, stepStack]
  split_ifs <;> rfl

/-! ## The validator and the token sequence -/

theorem loop_eq_runTokens (json : List Char) :
    ∀ (fuel pos : Nat) (stack : List TokenType) (h : json.length - pos ≤ fuel),
      isValidJSON.loop json fuel pos stack h = runTokens (tokensFrom json fuel pos h) stack := by
  intro fuel
  induction fuel with
  | zero => intro pos stack h; rfl
  | succ n ih =>
    intro pos stack h
    by_cases hlt : pos < json.length
    · simp only [isValidJSON.loop, tokensFrom, hlt, ↓reduceDIte, runTokens, stepStack]
      split_ifs <;> first | rfl | exact ih _ _ _
    · simp only [isValidJSON.loop, tokensFrom, hlt, ↓reduceDIte, runTokens]

theorem isValidJSON_eq_runTokens (json : List Char) :
    isValidJSON json = runTokens (tokens json) [] :=
  loop_eq_runTokens json _ _ _ _

theorem runTokens_iff : ∀ (ts : List Token) (stack : List TokenType),
    (∀ x ∈ stack, x = .LBRACE ∨ x = .LBRACKET) →
    (runTokens ts stack = true ↔
      (∀ t ∈ ts, t.type ≠ .INVALID) ∧
      (∀ k, (ts.take k).countP isCloser ≤ stack.length + (ts.take k).countP isOpener) ∧
      stack.length + ts.countP isOpener = ts.countP isCloser) := by
  intro ts
  induction ts with
  | nil =>
    intro stack _
    cases stack <;> simp [runTokens]
  | cons t ts ih =>
    intro stack hst
    have hk : ∀ (P : Nat → Prop), (∀ k, P k) ↔ (P 0 ∧ ∀ k, P (k + 1)) := by
      intro P
      constructor
      · intro h; exact ⟨h 0, fun k => h (k + 1)⟩
      · rintro ⟨h0, h1⟩ k
        cases k with
        | zero => exact h0
        | succ k => exact h1 k
    by_cases hinv : t.type = .INVALID
    · simp [runTokens, stepStack, hinv]
    by_cases hop : t.type = .LBRACE ∨ t.type = .LBRACKET
    · have hcl : ¬ (t.type = .RBRACE ∨ t.type = .RBRACKET) := by
        rcases hop with h | h <;> simp [h]
      have hst' : ∀ x ∈ t.type :: stack, x = .LBRACE ∨ x = .LBRACKET := by
        intro x hx
        rcases List.mem_cons.1 hx with rfl | hx
        · exact hop
        · exact hst x hx
      have := ih (t.type :: stack) hst'
      simp only [runTokens, stepStack, hinv, hop, ↓reduceIte, this]
      rw [hk (fun k => List.countP isCloser (List.take k (t :: ts))
          ≤ stack.length + List.countP isOpener (List.take k (t :: ts)))]
      simp only [List.take_succ_cons, List.countP_cons, isOpener, isCloser, hop, hcl,
        decide_True, decide_False, ↓reduceIte, List.length_cons, List.mem_cons, forall_eq_or_imp,
        List.take_zero, List.countP_nil, Bool.false_eq_true]
      constructor
      · rintro ⟨h1, h2, h3⟩
        exact ⟨⟨hinv, h1⟩, ⟨by omega, fun k => by have := h2 k; omega⟩, by omega⟩
      · rintro ⟨⟨_, h1⟩, ⟨_, h2⟩, h3⟩
        exact ⟨h1, fun k => by have := h2 k; omega, by omega⟩
    by_cases hcl : t.type = .RBRACE ∨ t.type = .RBRACKET
    · cases stack with
      | nil =>
        simp only [runTokens, stepStack, hinv, hop, hcl, ↓reduceIte, List.isEmpty_nil,
          Bool.true_or, Bool.false_eq_true, false_iff, not_and]
        intro _ h2
        have := h2 1
        simp [isCloser, isOpener, hcl, hop] at this
      | cons x stack =>
        have hx : x = .LBRACE ∨ x = .LBRACKET := hst x (by simp)
        have hst' : ∀ y ∈ stack, y = .LBRACE ∨ y = .LBRACKET := fun y hy =>
          hst y (List.mem_cons_of_mem _ hy)
        have hhead : (stack.isEmpty = false) ∨ True := Or.inr trivial
        have hcond : ((x :: stack).isEmpty
            || ((x :: stack).head? != some .LBRACE && (x :: stack).head? != some .LBRACKET))
              = false := by
          rcases hx with rfl | rfl <;> simp
        have := ih stack hst'
        simp only [runTokens, stepStack, hinv, hop, hcl, ↓reduceIte, hcond, Bool.false_eq_true,
          List.tail_cons, this]
        rw [hk (fun k => List.countP isCloser (List.take k (t :: ts))
          ≤ (x :: stack).length + List.countP isOpener (List.take k (t :: ts)))]
        simp only [List.take_succ_cons, List.countP_cons, isOpener, isCloser, hop, hcl,
          decide_True, decide_False, ↓reduceIte, List.length_cons, List.mem_cons,
          forall_eq_or_imp, List.take_zero, List.countP_nil, Bool.false_eq_true]
        constructor
        · rintro ⟨h1, h2, h3⟩
          exact ⟨⟨hinv, h1⟩, ⟨by omega, fun k => by have := h2 k; omega⟩, by omega⟩
        · rintro ⟨⟨_, h1⟩, ⟨_, h2⟩, h3⟩
          exact ⟨h1, fun k => by have := h2 k; omega, by omega⟩
    · have := ih stack hst
      simp only [runTokens, stepStack, hinv, hop, hcl, ↓reduceIte, this]
      rw [hk (fun k => List.countP isCloser (List.take k (t :: ts))
          ≤ stack.length + List.countP isOpener (List.take k (t :: ts)))]
      simp only [List.take_succ_cons, List.countP_cons, isOpener, isCloser, hop, hcl,
        decide_True, decide_False, ↓reduceIte, List.length_cons, List.mem_cons, forall_eq_or_imp,
        List.take_zero, List.countP_nil, Bool.false_eq_true]
      constructor
      · rintro ⟨h1, h2, h3⟩
        exact ⟨⟨hinv, h1⟩, ⟨by omega, fun k => by have := h2 k; omega⟩, by omega⟩
      · rintro ⟨⟨_, h1⟩, ⟨_, h2⟩, h3⟩
        exact ⟨h1, fun k => by have := h2 k; omega, by omega⟩

/-- C1: `isValidJSON s` is true exactly when the token sequence of `s` (the tokens
`getNextToken` returns when called from cursor 0 until the cursor is at the end) holds
no `INVALID` token, no prefix of it has more closers than openers, and the whole
sequence has as many openers as closers. The kinds of opener and closer are not
compared. -/
theorem isValidJSON_iff_tokens_balanced (s : List Char) :
    isValidJSON s = true ↔
      (∀ t ∈ tokens s, t.type ≠ .INVALID) ∧
      (∀ k, ((tokens s).take k).countP isCloser ≤ ((tokens s).take k).countP isOpener) ∧
      (tokens s).countP isOpener = (tokens s).countP isCloser := by
  rw [isValidJSON_eq_runTokens, runTokens_iff (tokens s) [] (by simp)]
  simp

/-- C2, the code at the input `{} `: the two characters `{}` are accepted and the same
text followed by one blank is rejected. After `}` the loop condition still holds, the
lexer skips the blank, finds the end of the buffer and returns `INVALID` (lines 71-74),
and lines 147-149 return false on it. -/
theorem isValidJSON_trailing_space :
    isValidJSON ['{', '}'] = true ∧ isValidJSON (['{', '}'] ++ [' ']) = false ∧
      (∀ c ∈ [' '], isWhiteSpace c = true) := by
  decide

theorem validFrom_lexStep_false {suf : List Char} {tok : Token} {rest : List Char}
    (h : LexStep suf tok rest) (hne : suf ≠ []) (stack : List TokenType)
    (hs : stepStack tok.type stack = none) : validFrom suf stack = false := by
  rw [validFrom_lexStep h hne, hs]

theorem validFrom_lexStep_some {suf : List Char} {tok : Token} {rest : List Char}
    (h : LexStep suf tok rest) (hne : suf ≠ []) (stack stack' : List TokenType)
    (hs : stepStack tok.type stack = some stack') : validFrom suf stack = validFrom rest stack' := by
  rw [validFrom_lexStep h hne, hs]

/-- C5: white space followed by `}` or by `]` is rejected whatever comes after the
closer: the closer meets the empty stack. -/
theorem isValidJSON_closer_on_empty_stack (w rest : List Char)
    (hw : ∀ c ∈ w, isWhiteSpace c = true) :
    isValidJSON (w ++ '}' :: rest) = false ∧ isValidJSON (w ++ ']' :: rest) = false := by
  constructor
  · exact validFrom_lexStep_false (LexStep.punct w '}' rest .RBRACE hw (by decide)) (by simp) []
      (by decide)
  · exact validFrom_lexStep_false (LexStep.punct w ']' rest .RBRACKET hw (by decide)) (by simp) []
      (by decide)

/-- C5 at blank, newline, closer, `{}`, and at the input `}` alone. -/
theorem isValidJSON_closer_on_empty_stack_witness :
    (∀ c ∈ [' ', '\n'], isWhiteSpace c = true) ∧
      isValidJSON ([' ', '\n'] ++ '}' :: ['{', '}']) = false ∧
      isValidJSON ([' ', '\n'] ++ ']' :: ['{', '}']) = false ∧
      isValidJSON ([] ++ '}' :: []) = false :=
  ⟨by decide, (isValidJSON_closer_on_empty_stack [' ', '\n'] ['{', '}'] (by decide)).1,
    (isValidJSON_closer_on_empty_stack [' ', '\n'] ['{', '}'] (by decide)).2,
    (isValidJSON_closer_on_empty_stack [] [] (by simp)).1⟩

/-! ## Bare tokens -/

theorem classify_type_ne_invalid_iff (v : List Char) :
    (classify v).type ≠ .INVALID ↔ isValueText v := by
  unfold classify isValueText isValidBoolean isValidNull
  by_cases h1 : isValidNumber v = true
  · simp [h1]
  by_cases h2 : v = ['t', 'r', 'u', 'e']
  · subst h2; decide
  by_cases h3 : v = ['f', 'a', 'l', 's', 'e']
  · subst h3; decide
  by_cases h4 : v = ['n', 'u', 'l', 'l']
  · subst h4; decide
  · simp [h1, h2, h3, h4]

theorem classify_type_cases (v : List Char) :
    (classify v).type = .NUMBER ∨ (classify v).type = .BOOLEAN ∨ (classify v).type = .NULLVAL
      ∨ (classify v).type = .INVALID := by
  unfold classify
  split_ifs <;> simp

theorem stepStack_classify_pos (v : List Char) (stack : List TokenType) (h : isValueText v) :
    stepStack (classify v).type stack = some stack := by
  have hne := (classify_type_ne_invalid_iff v).2 h
  rcases classify_type_cases v with h' | h' | h' | h'
  · simp [stepStack, h']
  · simp [stepStack, h']
  · simp [stepStack, h']
  · exact absurd h' hne

theorem stepStack_classify_neg (v : List Char) (stack : List TokenType) (h : ¬ isValueText v) :
    stepStack (classify v).type stack = none := by
  have : (classify v).type = .INVALID := by
    by_contra hne
    exact h ((classify_type_ne_invalid_iff v).1 hne)
  simp [stepStack, this]

theorem isValueText_chars (v : List Char) (h : isValueText v) : ∀ c ∈ v, isValueChar c = true := by
  rcases h with h | h | h | h
  · intro c hc
    have := ((isValidNumber_iff v).1 h).2.2.1 c hc
    rcases this with hd | hd
    · simp [isValueChar, (isNumeric_iff c).2 hd]
    · simp [isValueChar, hd]
  · subst h; decide
  · subst h; decide
  · subst h; decide

theorem isValueText_ne_nil (v : List Char) (h : isValueText v) : v ≠ [] := by
  rintro rfl
  revert h
  unfold isValueText
  decide

theorem bareCont_false_iff (c : Char) :
    bareCont c = false ↔
      c = ' ' ∨ c = '\t' ∨ c = '\n' ∨ c = '\r' ∨ c = ',' ∨ c = '}' ∨ c = ']' := by
  simp only [bareCont, isWhiteSpace, Bool.and_eq_false_iff, Bool.not_eq_false',
    Bool.or_eq_true, beq_iff_eq, bne_eq_false_iff_eq]
  tauto

theorem isValueChar_bareCont (c : Char) (h : isValueChar c = true) : bareCont c = true := by
  cases hb : bareCont c with
  | true => rfl
  | false =>
    exfalso
    rcases (bareCont_false_iff c).1 hb with hb | hb | hb | hb | hb | hb | hb <;>
      subst hb <;> revert h <;> decide

theorem bareCont_not_ws (c : Char) (h : bareCont c = true) : isWhiteSpace c = false := by
  simp only [bareCont, Bool.and_eq_true, Bool.not_eq_true'] at h
  exact h.1.1.1

theorem isValueChar_punctType (c : Char) (h : isValueChar c = true) : punctType c = none := by
  cases hp : punctType c with
  | none => rfl
  | some ty =>
    exfalso
    unfold punctType at hp
    split_ifs at hp <;> subst_vars <;> revert h <;> decide

theorem isValueChar_ne_quote (c : Char) (h : isValueChar c = true) : c ≠ '"' := by
  rintro rfl
  revert h
  decide

theorem bareCont_of_not (c : Char)
    (h : isWhiteSpace c = false ∧ c ≠ ',' ∧ c ≠ '}' ∧ c ≠ ']') : bareCont c = true := by
  obtain ⟨h1, h2, h3, h4⟩ := h
  simp [bareCont, h1, h2, h3, h4]

theorem punctType_eq_none_iff (c : Char) :
    punctType c = none ↔ c ≠ '{' ∧ c ≠ '}' ∧ c ≠ '[' ∧ c ≠ ']' ∧ c ≠ ':' ∧ c ≠ ',' := by
  unfold punctType
  split_ifs <;> simp [*]

/-- C10: for a non-empty `v` without white space, `,`, `}` and `]` whose first
character is none of `{`, `[`, `:` and the quote, `isValidJSON v` is true exactly when
`v` is a valid number or one of `true`, `false`, `null`; any other such `v` is lexed
as one `INVALID` token and rejected. -/
theorem isValidJSON_single_bare_token (v : List Char) (hne : v ≠ [])
    (hv : ∀ c ∈ v, isWhiteSpace c = false ∧ c ≠ ',' ∧ c ≠ '}' ∧ c ≠ ']')
    (hfirst : ∀ c ∈ v.head?, c ≠ '{' ∧ c ≠ '[' ∧ c ≠ ':' ∧ c ≠ '"') :
    (isValidJSON v = true ↔
      (isValidNumber v = true ∨ v = ['t', 'r', 'u', 'e'] ∨ v = ['f', 'a', 'l', 's', 'e']
        ∨ v = ['n', 'u', 'l', 'l'])) ∧
    (¬ (isValidNumber v = true ∨ v = ['t', 'r', 'u', 'e'] ∨ v = ['f', 'a', 'l', 's', 'e']
        ∨ v = ['n', 'u', 'l', 'l']) →
      (getNextToken v 0).1.type = .INVALID ∧ isValidJSON v = false) := by
  cases v with
  | nil => exact absurd rfl hne
  | cons c body =>
    have hc := hv c (by simp)
    have hf := hfirst c (by simp)
    have hp : punctType c = none :=
      (punctType_eq_none_iff c).2 ⟨hf.1, hc.2.2.1, hf.2.1, hc.2.2.2, hf.2.2.1, hc.2.1⟩
    have hlex : LexStep ([] ++ c :: (body ++ [])) (classify (c :: body)) [] :=
      LexStep.bare [] c body [] (by simp) hc.1 hp hf.2.2.2
        (fun x hx => bareCont_of_not x (hv x (List.mem_cons_of_mem _ hx))) (by simp)
    simp only [List.nil_append, List.append_nil] at hlex
    have hstep := validFrom_lexStep hlex (by simp) []
    rw [← isValidJSON_eq_validFrom] at hstep
    have htok := lexStep_sound hlex
    by_cases hval : isValueText (c :: body)
    · rw [stepStack_classify_pos _ _ hval] at hstep
      refine ⟨?_, fun h => absurd hval h⟩
      rw [hstep]
      exact ⟨fun _ => hval, fun _ => rfl⟩
    · rw [stepStack_classify_neg _ _ hval] at hstep
      have hinv : (classify (c :: body)).type = .INVALID := by
        by_contra h
        exact hval ((classify_type_ne_invalid_iff _).1 h)
      refine ⟨?_, fun _ => ⟨by rw [htok]; exact hinv, hstep⟩⟩
      rw [hstep]
      exact ⟨fun h => absurd h (by simp), fun h => absurd h hval⟩

/-- C10 at `0` (accepted); `01`, `1.2.3` and `-5` are rejected. -/
theorem isValidJSON_single_bare_token_witness :
    (['0'] ≠ [] ∧ (∀ c ∈ ['0'], isWhiteSpace c = false ∧ c ≠ ',' ∧ c ≠ '}' ∧ c ≠ ']') ∧
      (∀ c ∈ (['0'] : List Char).head?, c ≠ '{' ∧ c ≠ '[' ∧ c ≠ ':' ∧ c ≠ '"')) ∧
    (isValidJSON ['0'] = true ↔
      (isValidNumber ['0'] = true ∨ ['0'] = ['t', 'r', 'u', 'e']
        ∨ ['0'] = ['f', 'a', 'l', 's', 'e'] ∨ ['0'] = ['n', 'u', 'l', 'l'])) ∧
    isValidJSON ['0'] = true ∧ isValidJSON ['0', '1'] = false ∧
    isValidJSON ['1', '.', '2', '.', '3'] = false ∧ isValidJSON ['-', '5'] = false :=
  ⟨by decide,
    (isValidJSON_single_bare_token ['0'] (by decide) (by decide) (by decide)).1,
    by decide, by decide, by decide, by decide⟩

/-! ## Quotes -/

theorem validFrom_lexStep_true {suf : List Char} {tok : Token} {rest : List Char}
    (h : LexStep suf tok rest) (hne : suf ≠ []) (stack : List TokenType)
    (hv : validFrom suf stack = true) :
    ∃ stack', stepStack tok.type stack = some stack' ∧ validFrom rest stack' = true := by
  rw [validFrom_lexStep h hne] at hv
  cases hs : stepStack tok.type stack with
  | none => rw [hs] at hv; exact absurd hv (by simp)
  | some stack' => rw [hs] at hv; exact ⟨stack', rfl, hv⟩

theorem stepStack_invalid (stack : List TokenType) : stepStack .INVALID stack = none := rfl

theorem ws_ne_quote (c : Char) (h : isWhiteSpace c = true) : c ≠ '"' := by
  rintro rfl
  revert h
  decide

theorem punctType_ne_quote (c : Char) (ty : TokenType) (h : punctType c = some ty) : c ≠ '"' := by
  rintro rfl
  have : punctType '"' = none := by decide
  rw [this] at h
  exact absurd h (by simp)

theorem count_eq_zero_of_forall_ne (a : Char) (l : List Char) (h : ∀ c ∈ l, c ≠ a) :
    l.count a = 0 :=
  List.count_eq_zero.2 (fun hmem => h a hmem rfl)

theorem stepStack_classify_some (v : List Char) (stack stack' : List TokenType)
    (h : stepStack (classify v).type stack = some stack') : isValueText v ∧ stack' = stack := by
  by_cases hv : isValueText v
  · rw [stepStack_classify_pos v stack hv] at h
    exact ⟨hv, (Option.some.inj h).symm⟩
  · rw [stepStack_classify_neg v stack hv] at h
    exact absurd h (by simp)

/-- An accepted rest of the buffer holds an even number of quote characters. -/
theorem validFrom_true_even_quotes : ∀ (n : Nat) (suf : List Char) (stack : List TokenType),
    suf.length ≤ n → validFrom suf stack = true → suf.count '"' % 2 = 0 := by
  intro n
  induction n with
  | zero =>
    intro suf stack hlen _
    have : suf = [] := List.length_eq_zero.1 (Nat.le_zero.1 hlen)
    subst this
    rfl
  | succ n ih =>
    intro suf stack hlen hv
    by_cases hne : suf = []
    · subst hne; rfl
    obtain ⟨tok, rest, hlex⟩ := lexStep_total suf
    obtain ⟨stack', hs, hv'⟩ := validFrom_lexStep_true hlex hne stack hv
    have hlt := lexStep_rest_length hlex hne
    have hrest := ih rest stack' (by omega) hv'
    clear hv hv' hlen hlt ih
    induction hlex with
    | eof w hw => exact absurd hs (by simp [stepStack_invalid])
    | punct w c rest ty hw hc =>
      have h1 := count_eq_zero_of_forall_ne '"' w (fun c hc => ws_ne_quote c (hw c hc))
      have h2 : c ≠ '"' := punctType_ne_quote c ty hc
      simp only [List.count_append, List.count_cons, h1, beq_iff_eq, h2, ↓reduceIte]
      omega
    | string w content rest hw hq =>
      have h1 := count_eq_zero_of_forall_ne '"' w (fun c hc => ws_ne_quote c (hw c hc))
      have h2 := count_eq_zero_of_forall_ne '"' content hq
      simp only [List.count_append, List.count_cons, h1, h2, beq_self_eq_true, ↓reduceIte]
      omega
    | unterminated w content hw hq => exact absurd hs (by simp [stepStack_invalid])
    | bare w c body rest hw hc hp hcq hb hr =>
      have h1 := count_eq_zero_of_forall_ne '"' w (fun c hc => ws_ne_quote c (hw c hc))
      have hval := (stepStack_classify_some _ _ _ hs).1
      have h2 := count_eq_zero_of_forall_ne '"' (c :: body)
        (fun x hx => isValueChar_ne_quote x (isValueText_chars _ hval x hx))
      have h3 : List.count '"' (w ++ c :: (body ++ rest))
          = List.count '"' w + (List.count '"' (c :: body) + List.count '"' rest) := by
        rw [List.count_append, ← List.cons_append, List.count_append]
      rw [h3, h1, h2]
      omega

/-- C4: an input with an odd number of double-quote characters is rejected. -/
theorem isValidJSON_odd_quotes_rejected (s : List Char) (h : s.count '"' % 2 = 1) :
    isValidJSON s = false := by
  cases hv : isValidJSON s with
  | false => rfl
  | true =>
    have := validFrom_true_even_quotes s.length s [] (Nat.le_refl _) hv
    omega

/-- C4 at the input `{"a":"b}`, which holds three quotes. -/
theorem isValidJSON_odd_quotes_rejected_witness :
    (['{', '"', 'a', '"', ':', '"', 'b', '}'] : List Char).count '"' % 2 = 1 ∧
      isValidJSON ['{', '"', 'a', '"', ':', '"', 'b', '}'] = false :=
  ⟨by decide, isValidJSON_odd_quotes_rejected _ (by decide)⟩

/-! ## Bracket characters -/

theorem countP_eq_zero_of_forall (p : Char → Bool) (l : List Char) (h : ∀ c ∈ l, p c = false) :
    l.countP p = 0 :=
  List.countP_eq_zero.2 (fun c hc => by simp [h c hc])

theorem ws_not_bracket (c : Char) (h : isWhiteSpace c = true) :
    isOpenChar c = false ∧ isCloseChar c = false := by
  simp only [isWhiteSpace, Bool.or_eq_true, beq_iff_eq] at h
  rcases h with ((h | h) | h) | h <;> subst h <;> decide

theorem isValueChar_not_bracket (c : Char) (h : isValueChar c = true) :
    isOpenChar c = false ∧ isCloseChar c = false := by
  constructor
  · cases ho : isOpenChar c with
    | false => rfl
    | true =>
      simp only [isOpenChar, Bool.or_eq_true, beq_iff_eq] at ho
      rcases ho with ho | ho <;> subst ho <;> revert h <;> decide
  · cases ho : isCloseChar c with
    | false => rfl
    | true =>
      simp only [isCloseChar, Bool.or_eq_true, beq_iff_eq] at ho
      rcases ho with ho | ho <;> subst ho <;> revert h <;> decide

/-- What one accepted token does to the depth, counted in bracket characters of the
text it consumes, when the unread text holds no quote. -/
theorem lexStep_chunk_counts {suf : List Char} {tok : Token} {rest : List Char}
    (h : LexStep suf tok rest) (hq : '"' ∉ suf) (stack stack' : List TokenType)
    (hs : stepStack tok.type stack = some stack') :
    ∃ a, suf = a ++ rest ∧
      stack.length + a.countP isOpenChar = stack'.length + a.countP isCloseChar ∧
      a.countP isCloseChar ≤ stack.length := by
  induction h with
  | eof w hw => exact absurd hs (by simp [stepStack_invalid])
  | punct w c rest ty hw hc =>
    refine ⟨w ++ [c], by simp, ?_⟩
    have h1 := countP_eq_zero_of_forall isOpenChar w (fun c hc => (ws_not_bracket c (hw c hc)).1)
    have h2 := countP_eq_zero_of_forall isCloseChar w (fun c hc => (ws_not_bracket c (hw c hc)).2)
    simp only [List.countP_append, h1, h2, Nat.zero_add]
    unfold punctType at hc
    split_ifs at hc <;> subst_vars <;> simp only [Option.some.injEq] at hc <;> subst hc
    · simp [stepStack] at hs
      subst hs
      simp [isOpenChar, isCloseChar]
    · cases stack with
      | nil => simp [stepStack] at hs
      | cons x st =>
        simp only [stepStack] at hs
        split_ifs at hs <;> simp_all [isOpenChar, isCloseChar]
    · simp [stepStack] at hs
      subst hs
      simp [isOpenChar, isCloseChar]
    · cases stack with
      | nil => simp [stepStack] at hs
      | cons x st =>
        simp only [stepStack] at hs
        split_ifs at hs <;> simp_all [isOpenChar, isCloseChar]
    · simp [stepStack] at hs
      subst hs
      simp [isOpenChar, isCloseChar]
    · simp [stepStack] at hs
      subst hs
      simp [isOpenChar, isCloseChar]
  | string w content rest hw hq' => exact absurd (by simp) hq
  | unterminated w content hw hq' => exact absurd (by simp) hq
  | bare w c body rest hw hc hp hcq hb hr =>
    obtain ⟨hval, hst⟩ := stepStack_classify_some _ _ _ hs
    subst hst
    refine ⟨w ++ c :: body, by simp, ?_⟩
    have h1 := countP_eq_zero_of_forall isOpenChar w (fun c hc => (ws_not_bracket c (hw c hc)).1)
    have h2 := countP_eq_zero_of_forall isCloseChar w (fun c hc => (ws_not_bracket c (hw c hc)).2)
    have h3 := countP_eq_zero_of_forall isOpenChar (c :: body)
      (fun x hx => (isValueChar_not_bracket x (isValueText_chars _ hval x hx)).1)
    have h4 := countP_eq_zero_of_forall isCloseChar (c :: body)
      (fun x hx => (isValueChar_not_bracket x (isValueText_chars _ hval x hx)).2)
    rw [List.countP_append, List.countP_append, h1, h2, h3, h4]
    simp

theorem validFrom_true_char_balance : ∀ (n : Nat) (suf : List Char) (stack : List TokenType),
    suf.length ≤ n → '"' ∉ suf → validFrom suf stack = true →
      (∀ k, (suf.take k).countP isCloseChar ≤ stack.length + (suf.take k).countP isOpenChar) ∧
        stack.length + suf.countP isOpenChar = suf.countP isCloseChar := by
  intro n
  induction n with
  | zero =>
    intro suf stack hlen _ hv
    have : suf = [] := List.length_eq_zero.1 (Nat.le_zero.1 hlen)
    subst this
    rw [validFrom_nil, List.isEmpty_eq_true] at hv
    subst hv
    simp
  | succ n ih =>
    intro suf stack hlen hq hv
    by_cases hne : suf = []
    · subst hne
      rw [validFrom_nil, List.isEmpty_eq_true] at hv
      subst hv
      simp
    obtain ⟨tok, rest, hlex⟩ := lexStep_total suf
    obtain ⟨stack', hs, hv'⟩ := validFrom_lexStep_true hlex hne stack hv
    have hlt := lexStep_rest_length hlex hne
    obtain ⟨a, ha, hcount, hcl⟩ := lexStep_chunk_counts hlex hq stack stack' hs
    subst ha
    have hq' : '"' ∉ rest := fun h => hq (List.mem_append_right _ h)
    obtain ⟨ihp, iht⟩ := ih rest stack' (by omega) hq' hv'
    constructor
    · intro k
      rw [List.take_append_eq_append_take, List.countP_append, List.countP_append]
      by_cases hk : k ≤ a.length
      · have h0 : k - a.length = 0 := by omega
        have hsub := (List.take_sublist k a).countP_le (p := isCloseChar)
        rw [h0]
        simp only [List.take_zero, List.countP_nil, Nat.add_zero]
        omega
      · rw [List.take_of_length_le (by omega : a.length ≤ k)]
        have := ihp (k - a.length)
        omega
    · rw [List.countP_append, List.countP_append]
      omega

/-- C6: an accepted input without double-quote characters has as many `{`, `[`
characters as `}`, `]` characters, and in none of its prefixes do the `}`, `]`
characters outnumber the `{`, `[` characters. So an input that leaves an opener
unclosed is rejected. -/
theorem isValidJSON_true_chars_balanced (s : List Char) (hq : '"' ∉ s)
    (hv : isValidJSON s = true) :
    s.countP isOpenChar = s.countP isCloseChar ∧
      ∀ k, (s.take k).countP isCloseChar ≤ (s.take k).countP isOpenChar := by
  obtain ⟨hp, ht⟩ := validFrom_true_char_balance s.length s [] (Nat.le_refl _) hq hv
  simp only [List.length_nil, Nat.zero_add] at hp ht
  exact ⟨ht, hp⟩

/-- C6 at the accepted input `[1,{}]`; the input `{` is rejected. -/
theorem isValidJSON_true_chars_balanced_witness :
    ('"' ∉ ['[', '1', ',', '{', '}', ']'] ∧ isValidJSON ['[', '1', ',', '{', '}', ']'] = true) ∧
      (['[', '1', ',', '{', '}', ']'].countP isOpenChar
          = ['[', '1', ',', '{', '}', ']'].countP isCloseChar ∧
        ∀ k, ((['[', '1', ',', '{', '}', ']'] : List Char).take k).countP isCloseChar
          ≤ ((['[', '1', ',', '{', '}', ']'] : List Char).take k).countP isOpenChar) ∧
      isValidJSON ['{'] = false :=
  ⟨⟨by decide, by decide⟩,
    isValidJSON_true_chars_balanced ['[', '1', ',', '{', '}', ']'] (by decide) (by decide),
    by decide⟩

/-! ## The validator does not tell braces from brackets -/

theorem stepStack_class_cases (t : TokenType) (s : List TokenType) :
    (tokenClass t = 0 ∧ stepStack t s = none) ∨
    (tokenClass t = 1 ∧ (t = .LBRACE ∨ t = .LBRACKET) ∧ stepStack t s = some (t :: s)) ∨
    (tokenClass t = 2 ∧ stepStack t s =
      if s.isEmpty || (s.head? != some .LBRACE && s.head? != some .LBRACKET) then none
      else some s.tail) ∨
    (tokenClass t = 3 ∧ stepStack t s = some s) := by
  cases t <;> simp [tokenClass, stepStack]

theorem stepStack_sameDepth (t₁ t₂ : TokenType) (s₁ s₂ : List TokenType)
    (ht : tokenClass t₁ = tokenClass t₂) (hs : SameDepth s₁ s₂) :
    (stepStack t₁ s₁ = none ∧ stepStack t₂ s₂ = none) ∨
      ∃ r₁ r₂, stepStack t₁ s₁ = some r₁ ∧ stepStack t₂ s₂ = some r₂ ∧ SameDepth r₁ r₂ := by
  obtain ⟨hlen, h1, h2⟩ := hs
  rcases stepStack_class_cases t₁ s₁ with ⟨c1, e1⟩ | ⟨c1, o1, e1⟩ | ⟨c1, e1⟩ | ⟨c1, e1⟩ <;>
    rcases stepStack_class_cases t₂ s₂ with ⟨c2, e2⟩ | ⟨c2, o2, e2⟩ | ⟨c2, e2⟩ | ⟨c2, e2⟩ <;>
    first
    | (exfalso; omega)
    | skip
  · exact Or.inl ⟨e1, e2⟩
  · refine Or.inr ⟨_, _, e1, e2, by simp [hlen], ?_, ?_⟩
    · intro x hx
      rcases List.mem_cons.1 hx with rfl | hx
      · exact o1
      · exact h1 x hx
    · intro x hx
      rcases List.mem_cons.1 hx with rfl | hx
      · exact o2
      · exact h2 x hx
  · cases s₁ with
    | nil =>
      have : s₂ = [] := List.length_eq_zero.1 hlen.symm
      subst this
      exact Or.inl ⟨by rw [e1]; rfl, by rw [e2]; rfl⟩
    | cons x s₁ =>
      cases s₂ with
      | nil => simp at hlen
      | cons y s₂ =>
        have hx := h1 x (by simp)
        have hy := h2 y (by simp)
        have e1' : stepStack t₁ (x :: s₁) = some s₁ := by
          rw [e1]; rcases hx with rfl | rfl <;> simp
        have e2' : stepStack t₂ (y :: s₂) = some s₂ := by
          rw [e2]; rcases hy with rfl | rfl <;> simp
        exact Or.inr ⟨_, _, e1', e2', by simpa using hlen,
          fun z hz => h1 z (List.mem_cons_of_mem _ hz),
          fun z hz => h2 z (List.mem_cons_of_mem _ hz)⟩
  · exact Or.inr ⟨_, _, e1, e2, hlen, h1, h2⟩

theorem isOpenChar_iff (c : Char) : isOpenChar c = true ↔ c = '{' ∨ c = '[' := by
  simp [isOpenChar]

theorem isCloseChar_iff (c : Char) : isCloseChar c = true ↔ c = '}' ∨ c = ']' := by
  simp [isCloseChar]

theorem bracketMap_cases {f : Char → Char} (hf : BracketMap f) (c : Char) :
    f c = c ∨ ((c = '{' ∨ c = '[') ∧ (f c = '{' ∨ f c = '['))
      ∨ ((c = '}' ∨ c = ']') ∧ (f c = '}' ∨ f c = ']')) := by
  obtain ⟨h1, h2, h3⟩ := hf
  by_cases ho : isOpenChar c = true
  · exact Or.inr (Or.inl ⟨(isOpenChar_iff c).1 ho, (isOpenChar_iff _).1 (h1 c ho)⟩)
  by_cases hc : isCloseChar c = true
  · exact Or.inr (Or.inr ⟨(isCloseChar_iff c).1 hc, (isCloseChar_iff _).1 (h2 c hc)⟩)
  · exact Or.inl (h3 c (by simpa using ho) (by simpa using hc))

theorem swapBrackets_bracketMap : BracketMap swapBrackets := by
  refine ⟨?_, ?_, ?_⟩
  · intro c hc
    rcases (isOpenChar_iff c).1 hc with rfl | rfl <;> decide
  · intro c hc
    rcases (isCloseChar_iff c).1 hc with rfl | rfl <;> decide
  · intro c ho hc
    simp only [isOpenChar, isCloseChar, Bool.or_eq_false_iff, beq_eq_false_iff_ne] at ho hc
    simp [swapBrackets, ho.1, ho.2, hc.1, hc.2]

theorem bracketMap_ws {f : Char → Char} (hf : BracketMap f) (c : Char) :
    isWhiteSpace (f c) = isWhiteSpace c := by
  rcases bracketMap_cases hf c with h | ⟨hc | hc, h | h⟩ | ⟨hc | hc, h | h⟩ <;>
    rw [h] <;> subst hc <;> rfl

theorem bracketMap_bareCont {f : Char → Char} (hf : BracketMap f) (c : Char) :
    bareCont (f c) = bareCont c := by
  rcases bracketMap_cases hf c with h | ⟨hc | hc, h | h⟩ | ⟨hc | hc, h | h⟩ <;>
    rw [h] <;> subst hc <;> rfl

theorem bracketMap_quote {f : Char → Char} (hf : BracketMap f) (c : Char) :
    f c = '"' ↔ c = '"' := by
  rcases bracketMap_cases hf c with h | ⟨hc | hc, h | h⟩ | ⟨hc | hc, h | h⟩ <;>
    rw [h] <;> subst hc <;> decide

theorem bracketMap_isValueChar {f : Char → Char} (hf : BracketMap f) (c : Char) :
    isValueChar (f c) = isValueChar c := by
  rcases bracketMap_cases hf c with h | ⟨hc | hc, h | h⟩ | ⟨hc | hc, h | h⟩ <;>
    rw [h] <;> subst hc <;> rfl

theorem bracketMap_punctType {f : Char → Char} (hf : BracketMap f) (c : Char) :
    (punctType c = none ∧ punctType (f c) = none) ∨
      ∃ t₁ t₂, punctType c = some t₁ ∧ punctType (f c) = some t₂
        ∧ tokenClass t₂ = tokenClass t₁ := by
  rcases bracketMap_cases hf c with h | ⟨hc | hc, h | h⟩ | ⟨hc | hc, h | h⟩
  · rw [h]
    cases hp : punctType c with
    | none => exact Or.inl ⟨rfl, rfl⟩
    | some t => exact Or.inr ⟨t, t, rfl, rfl, rfl⟩
  all_goals (rw [h]; subst hc; exact Or.inr ⟨_, _, rfl, rfl, rfl⟩)

theorem isValueText_of_all_valueChar_map {f : Char → Char} (hf : BracketMap f) (v : List Char) :
    (∀ c ∈ v, isValueChar c = true) → v.map f = v := by
  intro h
  have : ∀ c ∈ v, f c = c := by
    intro c hc
    have hv := h c hc
    have hb := isValueChar_not_bracket c hv
    exact hf.2.2 c hb.1 hb.2
  calc v.map f = v.map id := List.map_congr_left this
    _ = v := List.map_id v

theorem bracketMap_isValueText {f : Char → Char} (hf : BracketMap f) (v : List Char) :
    isValueText (v.map f) ↔ isValueText v := by
  constructor
  · intro h
    have hall : ∀ c ∈ v, isValueChar c = true := by
      intro c hc
      rw [← bracketMap_isValueChar hf c]
      exact isValueText_chars _ h (f c) (List.mem_map_of_mem f hc)
    rwa [isValueText_of_all_valueChar_map hf v hall] at h
  · intro h
    rwa [isValueText_of_all_valueChar_map hf v (isValueText_chars v h)]

theorem bracketMap_classify {f : Char → Char} (hf : BracketMap f) (v : List Char) :
    tokenClass (classify (v.map f)).type = tokenClass (classify v).type := by
  by_cases h : isValueText v
  · rw [isValueText_of_all_valueChar_map hf v (isValueText_chars v h)]
  · have h' : ¬ isValueText (v.map f) := fun h' => h ((bracketMap_isValueText hf v).1 h')
    have e1 : (classify v).type = .INVALID := by
      by_contra hne
      exact h ((classify_type_ne_invalid_iff v).1 hne)
    have e2 : (classify (v.map f)).type = .INVALID := by
      by_contra hne
      exact h' ((classify_type_ne_invalid_iff _).1 hne)
    rw [e1, e2]

/-- The lexer takes the same step on the replaced text, up to the class of the
token. -/
theorem lexStep_map {f : Char → Char} (hf : BracketMap f) {suf : List Char} {tok : Token}
    {rest : List Char} (h : LexStep suf tok rest) :
    ∃ tok', LexStep (suf.map f) tok' (rest.map f)
      ∧ tokenClass tok'.type = tokenClass tok.type := by
  have hws : ∀ w : List Char, (∀ c ∈ w, isWhiteSpace c = true) →
      ∀ c ∈ w.map f, isWhiteSpace c = true := by
    intro w hw c hc
    obtain ⟨d, hd, rfl⟩ := List.mem_map.1 hc
    rw [bracketMap_ws hf]
    exact hw d hd
  have hnq : ∀ content : List Char, (∀ c ∈ content, c ≠ '"') →
      ∀ c ∈ content.map f, c ≠ '"' := by
    intro content hq c hc
    obtain ⟨d, hd, rfl⟩ := List.mem_map.1 hc
    exact fun h => hq d hd ((bracketMap_quote hf d).1 h)
  have hfq : f '"' = '"' := (bracketMap_quote hf '"').2 rfl
  induction h with
  | eof w hw => exact ⟨_, by simpa using LexStep.eof (w.map f) (hws w hw), rfl⟩
  | punct w c rest ty hw hc =>
    rcases bracketMap_punctType hf c with ⟨h1, _⟩ | ⟨t₁, t₂, h1, h2, h3⟩
    · rw [h1] at hc; exact absurd hc (by simp)
    · rw [h1] at hc
      have : t₁ = ty := Option.some.inj hc
      subst this
      refine ⟨⟨t₂, []⟩, ?_, h3⟩
      simpa using LexStep.punct (w.map f) (f c) (rest.map f) t₂ (hws w hw) h2
  | string w content rest hw hq =>
    refine ⟨⟨.STRING, content.map f⟩, ?_, rfl⟩
    simpa [hfq] using LexStep.string (w.map f) (content.map f) (rest.map f) (hws w hw)
      (hnq content hq)
  | unterminated w content hw hq =>
    refine ⟨⟨.INVALID, []⟩, ?_, rfl⟩
    simpa [hfq] using LexStep.unterminated (w.map f) (content.map f) (hws w hw) (hnq content hq)
  | bare w c body rest hw hc hp hcq hb hr =>
    refine ⟨classify ((c :: body).map f), ?_, bracketMap_classify hf _⟩
    have hp' : punctType (f c) = none := by
      rcases bracketMap_punctType hf c with ⟨_, h2⟩ | ⟨t₁, t₂, h1, _, _⟩
      · exact h2
      · rw [h1] at hp; exact absurd hp (by simp)
    have hb' : ∀ x ∈ body.map f, bareCont x = true := by
      intro x hx
      obtain ⟨d, hd, rfl⟩ := List.mem_map.1 hx
      rw [bracketMap_bareCont hf]
      exact hb d hd
    have hr' : ∀ d ∈ (rest.map f).head?, bareCont d = false := by
      intro d hd
      cases rest with
      | nil => simp at hd
      | cons e rest =>
        simp only [List.map_cons, List.head?_cons, Option.mem_def, Option.some.injEq] at hd
        subst hd
        rw [bracketMap_bareCont hf]
        exact hr e (by simp)
    have := LexStep.bare (w.map f) (f c) (body.map f) (rest.map f) (hws w hw)
      (by rw [bracketMap_ws hf]; exact hc) hp'
      (fun h => hcq ((bracketMap_quote hf c).1 h)) hb' hr'
    simpa using this

theorem validFrom_map {f : Char → Char} (hf : BracketMap f) :
    ∀ (n : Nat) (suf : List Char) (s₁ s₂ : List TokenType), suf.length ≤ n → SameDepth s₁ s₂ →
      validFrom (suf.map f) s₂ = validFrom suf s₁ := by
  intro n
  induction n with
  | zero =>
    intro suf s₁ s₂ hlen hs
    have : suf = [] := List.length_eq_zero.1 (Nat.le_zero.1 hlen)
    subst this
    simp only [List.map_nil, validFrom_nil]
    cases s₁ <;> cases s₂ <;> simp_all [SameDepth]
  | succ n ih =>
    intro suf s₁ s₂ hlen hs
    by_cases hne : suf = []
    · subst hne
      simp only [List.map_nil, validFrom_nil]
      cases s₁ <;> cases s₂ <;> simp_all [SameDepth]
    obtain ⟨tok, rest, hlex⟩ := lexStep_total suf
    obtain ⟨tok', hlex', hcls⟩ := lexStep_map hf hlex
    have hne' : suf.map f ≠ [] := by simpa using hne
    have hlt := lexStep_rest_length hlex hne
    rw [validFrom_lexStep hlex hne, validFrom_lexStep hlex' hne']
    rcases stepStack_sameDepth tok.type tok'.type s₁ s₂ hcls.symm hs with
      ⟨e1, e2⟩ | ⟨r₁, r₂, e1, e2, hr⟩
    · rw [e1, e2]
    · rw [e1, e2]
      exact ih rest r₁ r₂ (by omega) hr

/-- C7: replacing characters by a map that sends `{`, `[` to `{` or `[`, sends `}`,
`]` to `}` or `]` and fixes every other character does not change the verdict of
`isValidJSON`. Swapping braces with brackets is such a map. -/
theorem isValidJSON_bracket_kind_blind (f : Char → Char)
    (hopen : ∀ c, isOpenChar c = true → isOpenChar (f c) = true)
    (hclose : ∀ c, isCloseChar c = true → isCloseChar (f c) = true)
    (hfix : ∀ c, isOpenChar c = false → isCloseChar c = false → f c = c) (s : List Char) :
    isValidJSON (s.map f) = isValidJSON s :=
  validFrom_map ⟨hopen, hclose, hfix⟩ s.length s [] [] (Nat.le_refl _)
    ⟨rfl, by simp, by simp⟩

/-- C7 at `[1]`: under the swap it becomes `{1}`, under the map that turns `]` into
`}` it becomes `[1}`; both `[1}` and `[1]` are accepted. -/
theorem isValidJSON_bracket_kind_blind_witness :
    isValidJSON (['[', '1', ']'].map swapBrackets) = isValidJSON ['[', '1', ']'] ∧
      ['[', '1', ']'].map swapBrackets = ['{', '1', '}'] ∧
      isValidJSON (['[', '1', ']'].map (fun c => if c = ']' then '}' else c))
        = isValidJSON ['[', '1', ']'] ∧
      ['[', '1', ']'].map (fun c => if c = ']' then '}' else c) = ['[', '1', '}'] ∧
      isValidJSON ['[', '1', '}'] = true ∧ isValidJSON ['[', '1', ']'] = true :=
  ⟨isValidJSON_bracket_kind_blind swapBrackets swapBrackets_bracketMap.1
      swapBrackets_bracketMap.2.1 swapBrackets_bracketMap.2.2 ['[', '1', ']'],
    by decide,
    isValidJSON_bracket_kind_blind (fun c => if c = ']' then '}' else c)
      (fun c hc => by rcases (isOpenChar_iff c).1 hc with rfl | rfl <;> decide)
      (fun c hc => by rcases (isCloseChar_iff c).1 hc with rfl | rfl <;> decide)
      (fun c ho hc => by
        have : c ≠ ']' := by
          rintro rfl
          exact absurd hc (by decide)
        simp [this]) ['[', '1', ']'],
    by decide, by decide, by decide⟩

/-! ## Documents written token by token -/

theorem isValueChar_not_ws (c : Char) (h : isValueChar c = true) : isWhiteSpace c = false :=
  bareCont_not_ws c (isValueChar_bareCont c h)

theorem validFrom_render : ∀ (ps : List (List Char × Piece)) (stack : List TokenType),
    (∀ x ∈ stack, x = .LBRACE ∨ x = .LBRACKET) →
    (∀ x ∈ ps, ∀ c ∈ x.1, isWhiteSpace c = true) →
    (∀ x ∈ ps, x.2.WellFormed) →
    BareFollowed ps →
    (∀ k, (ps.take k).countP (fun x => x.2.isCloser)
      ≤ stack.length + (ps.take k).countP (fun x => x.2.isOpener)) →
    stack.length + ps.countP (fun x => x.2.isOpener) = ps.countP (fun x => x.2.isCloser) →
    validFrom (render ps) stack = true := by
  intro ps
  induction ps with
  | nil =>
    intro stack _ _ _ _ _ htot
    have : stack = [] := by
      cases stack with
      | nil => rfl
      | cons x st => simp at htot
    subst this
    rfl
  | cons x ps ih =>
    intro stack hst hws hwf hbare hpre htot
    obtain ⟨w, p⟩ := x
    have hw : ∀ c ∈ w, isWhiteSpace c = true := hws (w, p) (by simp)
    have hp : p.WellFormed := hwf (w, p) (by simp)
    have hws' : ∀ x ∈ ps, ∀ c ∈ x.1, isWhiteSpace c = true := fun x hx =>
      hws x (List.mem_cons_of_mem _ hx)
    have hwf' : ∀ x ∈ ps, x.2.WellFormed := fun x hx => hwf x (List.mem_cons_of_mem _ hx)
    have hpre1 : (if p.isCloser = true then 1 else 0)
        ≤ stack.length + (if p.isOpener = true then 1 else 0) := by
      have := hpre 1
      simpa only [List.take_succ_cons, List.take_zero, List.countP_cons, List.countP_nil,
        Nat.zero_add] using this
    have finish : ∀ (tok : Token) (stack' : List TokenType),
        LexStep (render ((w, p) :: ps)) tok (render ps) →
        stepStack tok.type stack = some stack' →
        (∀ x ∈ stack', x = .LBRACE ∨ x = .LBRACKET) →
        stack'.length + (if p.isCloser = true then 1 else 0)
          = stack.length + (if p.isOpener = true then 1 else 0) →
        validFrom (render ((w, p) :: ps)) stack = true := by
      intro tok stack' hlex hs hst' hlen
      have hne : render ((w, p) :: ps) ≠ [] := by
        intro h
        have := lexStep_rest_suffix hlex
        cases p <;> simp [render, Piece.text] at h
        have hv : isValueText ([] : List Char) := by
          have := hp
          rw [h.2.1] at this
          exact this
        exact isValueText_ne_nil _ hv rfl
      rw [validFrom_lexStep_some hlex hne stack stack' hs]
      refine ih stack' hst' hws' hwf' hbare.2 ?_ ?_
      · intro k
        have := hpre (k + 1)
        simp only [List.take_succ_cons, List.countP_cons] at this
        omega
      · simp only [List.countP_cons] at htot
        omega
    cases p with
    | punct c =>
      have hr : render ((w, Piece.punct c) :: ps) = w ++ c :: render ps := by
        simp [render, Piece.text]
      rw [hr] at finish
      simp only [Piece.WellFormed] at hp
      rcases hp with rfl | rfl | rfl | rfl | rfl | rfl
      · rw [hr]
        refine finish _ (.LBRACE :: stack)
          (LexStep.punct w '{' (render ps) .LBRACE hw (by decide)) (by simp [stepStack]) ?_
          (by simp [Piece.isOpener, Piece.isCloser, isOpenChar, isCloseChar])
        intro y hy
        rcases List.mem_cons.1 hy with rfl | hy
        · exact Or.inl rfl
        · exact hst y hy
      · rw [hr]
        cases stack with
        | nil => simp [Piece.isOpener, Piece.isCloser, isOpenChar, isCloseChar] at hpre1
        | cons y st =>
          have hy := hst y (by simp)
          exact finish _ st (LexStep.punct w '}' (render ps) .RBRACE hw (by decide))
            (by rcases hy with rfl | rfl <;> simp [stepStack])
            (fun z hz => hst z (List.mem_cons_of_mem _ hz))
            (by simp [Piece.isOpener, Piece.isCloser, isOpenChar, isCloseChar])
      · rw [hr]
        refine finish _ (.LBRACKET :: stack)
          (LexStep.punct w '[' (render ps) .LBRACKET hw (by decide)) (by simp [stepStack]) ?_
          (by simp [Piece.isOpener, Piece.isCloser, isOpenChar, isCloseChar])
        intro y hy
        rcases List.mem_cons.1 hy with rfl | hy
        · exact Or.inr rfl
        · exact hst y hy
      · rw [hr]
        cases stack with
        | nil => simp [Piece.isOpener, Piece.isCloser, isOpenChar, isCloseChar] at hpre1
        | cons y st =>
          have hy := hst y (by simp)
          exact finish _ st (LexStep.punct w ']' (render ps) .RBRACKET hw (by decide))
            (by rcases hy with rfl | rfl <;> simp [stepStack])
            (fun z hz => hst z (List.mem_cons_of_mem _ hz))
            (by simp [Piece.isOpener, Piece.isCloser, isOpenChar, isCloseChar])
      · rw [hr]
        exact finish _ stack (LexStep.punct w ':' (render ps) .COLON hw (by decide))
          (by simp [stepStack]) hst
          (by simp [Piece.isOpener, Piece.isCloser, isOpenChar, isCloseChar])
      · rw [hr]
        exact finish _ stack (LexStep.punct w ',' (render ps) .COMMA hw (by decide))
          (by simp [stepStack]) hst
          (by simp [Piece.isOpener, Piece.isCloser, isOpenChar, isCloseChar])
    | str content =>
      have hr : render ((w, Piece.str content) :: ps)
          = w ++ '"' :: (content ++ '"' :: render ps) := by
        simp [render, Piece.text]
      rw [hr] at finish ⊢
      simp only [Piece.WellFormed] at hp
      exact finish _ stack
        (LexStep.string w content (render ps) hw (fun c hc h => hp (h ▸ hc)))
        (by simp [stepStack]) hst (by simp [Piece.isOpener, Piece.isCloser])
    | bare text =>
      have hval : isValueText text := hp
      have hchars := isValueText_chars text hval
      cases text with
      | nil => exact absurd rfl (isValueText_ne_nil _ hval)
      | cons c body =>
        have hc := hchars c (by simp)
        have hrest : ∀ d ∈ (render ps).head?, bareCont d = false := by
          intro d hd
          exact (bareCont_false_iff d).2 (by
            have := hbare.1 rfl d hd
            simp only [isWhiteSpace, Bool.or_eq_true, beq_iff_eq] at this
            tauto)
        have hr : render ((w, Piece.bare (c :: body)) :: ps)
            = w ++ c :: (body ++ render ps) := by
          simp [render, Piece.text]
        rw [hr] at finish ⊢
        exact finish _ stack
          (LexStep.bare w c body (render ps) hw (isValueChar_not_ws c hc)
            (isValueChar_punctType c hc) (isValueChar_ne_quote c hc)
            (fun x hx => isValueChar_bareCont x (hchars x (List.mem_cons_of_mem _ hx))) hrest)
          (stepStack_classify_pos _ _ hval) hst (by simp [Piece.isOpener, Piece.isCloser])

/-- C3: a document written as well-formed token texts, each after optional white
space and with nothing after the last one, in which every bare token is followed at
once by white space, `,`, `}`, `]` or the end, and whose openers and closers are
balanced (no prefix of the pieces has more closers than openers, the totals are equal),
is accepted. Nothing is asked of the places of commas and colons. -/
theorem isValidJSON_of_balanced_pieces (ps : List (List Char × Piece))
    (hws : ∀ x ∈ ps, ∀ c ∈ x.1, isWhiteSpace c = true)
    (hwf : ∀ x ∈ ps, x.2.WellFormed)
    (hbare : BareFollowed ps)
    (hpre : ∀ k, (ps.take k).countP (fun x => x.2.isCloser)
      ≤ (ps.take k).countP (fun x => x.2.isOpener))
    (htot : ps.countP (fun x => x.2.isOpener) = ps.countP (fun x => x.2.isCloser)) :
    isValidJSON (render ps) = true :=
  validFrom_render ps [] (by simp) hws hwf hbare (by simpa using hpre) (by simpa using htot)

/-- C3 at the document `{"a":}` and at the empty document. -/
theorem isValidJSON_of_balanced_pieces_witness :
    render [([], .punct '{'), ([], .str ['a']), ([], .punct ':'), ([], .punct '}')]
        = ['{', '"', 'a', '"', ':', '}'] ∧
      isValidJSON (render [([], .punct '{'), ([], .str ['a']), ([], .punct ':'),
        ([], .punct '}')]) = true ∧
      render [] = [] ∧ isValidJSON (render []) = true :=
  ⟨by decide,
    isValidJSON_of_balanced_pieces
      [([], .punct '{'), ([], .str ['a']), ([], .punct ':'), ([], .punct '}')]
      (by decide)
      (by
        intro x hx
        simp only [List.mem_cons, List.mem_singleton, List.not_mem_nil, or_false] at hx
        rcases hx with rfl | rfl | rfl | rfl <;> simp [Piece.WellFormed])
      (by simp [BareFollowed, Piece.isBare])
      (by
        intro k
        rcases k with _ | _ | _ | _ | _ | k <;>
          simp [Piece.isCloser, Piece.isOpener, isOpenChar, isCloseChar])
      (by decide),
    by decide,
    isValidJSON_of_balanced_pieces [] (by simp) (by simp) trivial (by simp) (by simp)⟩

/-! ## One call of the lexer, by positions in the buffer -/

/-- The characters of `s` from index `a` up to index `b`, both read off by position. -/
theorem slice_mem (s : List Char) (a n : Nat) (x : Char) (hx : x ∈ (s.drop a).take n) :
    ∃ k, a ≤ k ∧ k < a + n ∧ s[k]? = some x := by
  obtain ⟨m, hm⟩ := List.mem_iff_getElem?.1 hx
  rw [List.getElem?_take] at hm
  split at hm
  · rename_i hlt
    rw [List.getElem?_drop] at hm
    exact ⟨a + m, by omega, by omega, hm⟩
  · exact absurd hm (by simp)

theorem drop_split_at (s : List Char) (a b : Nat) (c : Char) (hab : a ≤ b)
    (hb : s[b]? = some c) :
    s.drop a = (s.drop a).take (b - a) ++ c :: s.drop (b + 1) := by
  obtain ⟨hlt, hc⟩ := List.getElem?_eq_some_iff.1 hb
  have h1 : s.drop a = (s.drop a).take (b - a) ++ (s.drop a).drop (b - a) :=
    (List.take_append_drop _ _).symm
  have h2 : (s.drop a).drop (b - a) = s.drop b := by
    rw [List.drop_drop]
    congr 1
    omega
  have h3 : s.drop b = c :: s.drop (b + 1) := by
    rw [List.drop_eq_getElem_cons hlt, hc]
  rw [h2, h3] at h1
  exact h1

theorem slice_length (s : List Char) (a b : Nat) (hab : a ≤ b) (hb : b ≤ s.length) :
    ((s.drop a).take (b - a)).length = b - a := by
  rw [List.length_take, List.length_drop]
  omega

/-- The lexer called at the cursor `pos` does what it does at cursor 0 of the unread
text. -/
theorem getNextToken_at (json : List Char) (pos : Nat) (h : pos ≤ json.length) :
    getNextToken json pos
      = ((getNextToken (json.drop pos) 0).1, pos + (getNextToken (json.drop pos) 0).2) := by
  have h1 := getNextToken_append_shift (json.take pos) (json.drop pos) 0
  have hlen : (json.take pos).length = pos := by
    rw [List.length_take]; omega
  rw [List.take_append_drop, hlen, Nat.add_zero] at h1
  exact h1

/-- The unread text under `FirstNonWs`: white space up to index `i`, then `c`. -/
theorem firstNonWs_split {s : List Char} {p i : Nat} {c : Char} (h : FirstNonWs s p i c) :
    ∃ w, s.drop p = w ++ c :: s.drop (i + 1) ∧ w.length = i - p ∧
      (∀ d ∈ w, isWhiteSpace d = true) ∧ i < s.length := by
  obtain ⟨hpi, hc, _, hws⟩ := h
  have hlt : i < s.length := (List.getElem?_eq_some_iff.1 hc).1
  refine ⟨(s.drop p).take (i - p), drop_split_at s p i c hpi hc,
    slice_length s p i hpi (Nat.le_of_lt hlt), ?_, hlt⟩
  intro d hd
  obtain ⟨k, hk1, hk2, hk3⟩ := slice_mem s p (i - p) d hd
  exact hws k d hk1 (by omega) hk3

theorem getNextToken_of_lexStep {s : List Char} {p : Nat} {tok : Token} {rest : List Char}
    (hp : p ≤ s.length) (h : LexStep (s.drop p) tok rest) :
    getNextToken s p = (tok, s.length - rest.length) := by
  rw [getNextToken_at s p hp, lexStep_sound h]
  have := lexStep_rest_suffix h
  have hle : rest.length ≤ (s.drop p).length := by
    rw [← this, List.length_drop]; omega
  simp only [List.length_drop] at hle ⊢
  congr 1
  omega

/-- C14: when the first character at or after the cursor that is not white space
stands at index `i` and is one of `{`, `}`, `[`, `]`, `:`, `,`, `getNextToken` returns
the token of the kind LBRACE, RBRACE, LBRACKET, RBRACKET, COLON, COMMA in this order,
with empty text, and leaves the cursor at `i + 1`. -/
theorem getNextToken_structural (s : List Char) (p i : Nat) (c : Char)
    (hfirst : FirstNonWs s p i c)
    (hc : c = '{' ∨ c = '}' ∨ c = '[' ∨ c = ']' ∨ c = ':' ∨ c = ',') :
    getNextToken s p =
      (⟨if c = '{' then .LBRACE else if c = '}' then .RBRACE
          else if c = '[' then .LBRACKET else if c = ']' then .RBRACKET
          else if c = ':' then .COLON else .COMMA, []⟩, i + 1) := by
  obtain ⟨w, hsplit, hwlen, hw, hlt⟩ := firstNonWs_split hfirst
  have hp : p ≤ s.length := by have := hfirst.1; omega
  have hty : punctType c = some (if c = '{' then .LBRACE else if c = '}' then .RBRACE
      else if c = '[' then .LBRACKET else if c = ']' then .RBRACKET
      else if c = ':' then .COLON else .COMMA) := by
    rcases hc with rfl | rfl | rfl | rfl | rfl | rfl <;> decide
  have hlex := LexStep.punct w c (s.drop (i + 1)) _ hw hty
  rw [← hsplit] at hlex
  rw [getNextToken_of_lexStep hp hlex, List.length_drop]
  congr 1
  omega

/-- C14 at blank, `{`, `x` from cursor 0: the token is LBRACE and the cursor is 2. -/
theorem getNextToken_structural_witness :
    FirstNonWs [' ', '{', 'x'] 0 1 '{' ∧
      getNextToken [' ', '{', 'x'] 0 = (⟨.LBRACE, []⟩, 2) := by
  have h1 : FirstNonWs [' ', '{', 'x'] 0 1 '{' := by
    refine ⟨by decide, rfl, rfl, ?_⟩
    intro k d _ hk hd
    interval_cases k
    simp at hd
    subst hd
    rfl
  exact ⟨h1, getNextToken_structural _ 0 1 '{' h1 (Or.inl rfl)⟩

/-- C15: when the first character at or after the cursor that is not white space is a
double quote at index `i` and no double quote stands at an index greater than `i`,
`getNextToken` returns an `INVALID` token and leaves the cursor at the length of the
buffer. -/
theorem getNextToken_unterminated (s : List Char) (p i : Nat)
    (hfirst : FirstNonWs s p i '"') (hno : ∀ k, i < k → s[k]? ≠ some '"') :
    getNextToken s p = (⟨.INVALID, []⟩, s.length) := by
  obtain ⟨w, hsplit, hwlen, hw, hlt⟩ := firstNonWs_split hfirst
  have hp : p ≤ s.length := by have := hfirst.1; omega
  have hq : ∀ x ∈ s.drop (i + 1), x ≠ '"' := by
    intro x hx hxe
    obtain ⟨m, hm⟩ := List.mem_iff_getElem?.1 hx
    rw [List.getElem?_drop, hxe] at hm
    exact hno (i + 1 + m) (by omega) hm
  have hlex := LexStep.unterminated w (s.drop (i + 1)) hw hq
  rw [← hsplit] at hlex
  rw [getNextToken_of_lexStep hp hlex]
  rfl

/-- C15 at quote, `a`, `b` from cursor 0: the token is INVALID and the cursor is 3. -/
theorem getNextToken_unterminated_witness :
    (FirstNonWs ['"', 'a', 'b'] 0 0 '"' ∧
        ∀ k, 0 < k → (['"', 'a', 'b'] : List Char)[k]? ≠ some '"') ∧
      getNextToken ['"', 'a', 'b'] 0 = (⟨.INVALID, []⟩, 3) := by
  have h1 : FirstNonWs ['"', 'a', 'b'] 0 0 '"' :=
    ⟨Nat.le_refl _, rfl, rfl, fun k d _ hk _ => absurd hk (Nat.not_lt_zero k)⟩
  have h2 : ∀ k, 0 < k → (['"', 'a', 'b'] : List Char)[k]? ≠ some '"' := by
    intro k hk0 h
    have hk3 : k < 3 := (List.getElem?_eq_some_iff.1 h).1
    interval_cases k <;> revert h <;> decide
  exact ⟨⟨h1, h2⟩, getNextToken_unterminated _ 0 0 h1 h2⟩

/-- C12: when the first character at or after the cursor that is not white space is a
double quote at index `i` and `j` is the least index greater than `i` that holds a
double quote, `getNextToken` returns a STRING token whose text is the characters from
`i + 1` up to `j`, which hold no quote, and leaves the cursor at `j + 1`. A backslash
plays no part. -/
theorem getNextToken_string (s : List Char) (p i j : Nat)
    (hfirst : FirstNonWs s p i '"') (hij : i < j) (hj : s[j]? = some '"')
    (hmin : ∀ k, i < k → k < j → s[k]? ≠ some '"') :
    getNextToken s p = (⟨.STRING, substr s (i + 1) (j - (i + 1))⟩, j + 1) ∧
      '"' ∉ substr s (i + 1) (j - (i + 1)) := by
  obtain ⟨w, hsplit, hwlen, hw, hlt⟩ := firstNonWs_split hfirst
  have hp : p ≤ s.length := by have := hfirst.1; omega
  have hjlt : j < s.length := (List.getElem?_eq_some_iff.1 hj).1
  have hq : ∀ x ∈ substr s (i + 1) (j - (i + 1)), x ≠ '"' := by
    intro x hx hxe
    obtain ⟨k, hk1, hk2, hk3⟩ := slice_mem s (i + 1) (j - (i + 1)) x hx
    rw [hxe] at hk3
    exact hmin k (by omega) (by omega) hk3
  have hrest : s.drop (i + 1) = substr s (i + 1) (j - (i + 1)) ++ '"' :: s.drop (j + 1) :=
    drop_split_at s (i + 1) j '"' (by omega) hj
  have hlex := LexStep.string w (substr s (i + 1) (j - (i + 1))) (s.drop (j + 1)) hw hq
  rw [← hrest, ← hsplit] at hlex
  refine ⟨?_, fun h => hq _ h rfl⟩
  rw [getNextToken_of_lexStep hp hlex, List.length_drop]
  congr 1
  omega

/-- C12 at the six characters quote, `a`, backslash, quote, `b`, quote from cursor 0:
the token is STRING with the text `a`, backslash, and the cursor is 4. -/
theorem getNextToken_string_witness :
    (FirstNonWs ['"', 'a', '\\', '"', 'b', '"'] 0 0 '"' ∧
        (['"', 'a', '\\', '"', 'b', '"'] : List Char)[3]? = some '"' ∧
        ∀ k, 0 < k → k < 3 → (['"', 'a', '\\', '"', 'b', '"'] : List Char)[k]? ≠ some '"') ∧
      getNextToken ['"', 'a', '\\', '"', 'b', '"'] 0 = (⟨.STRING, ['a', '\\']⟩, 4) := by
  have h1 : FirstNonWs ['"', 'a', '\\', '"', 'b', '"'] 0 0 '"' :=
    ⟨Nat.le_refl _, rfl, rfl, fun k d _ hk _ => absurd hk (Nat.not_lt_zero k)⟩
  have h2 : ∀ k, 0 < k → k < 3 →
      (['"', 'a', '\\', '"', 'b', '"'] : List Char)[k]? ≠ some '"' := by
    intro k hk0 hk3
    interval_cases k <;> decide
  exact ⟨⟨h1, rfl, h2⟩, (getNextToken_string _ 0 0 3 h1 (by decide) rfl h2).1⟩

theorem classify_eq (v : List Char) :
    classify v =
      if isValidNumber v = true then ⟨.NUMBER, v⟩
      else if v = ['t', 'r', 'u', 'e'] ∨ v = ['f', 'a', 'l', 's', 'e'] then ⟨.BOOLEAN, v⟩
      else if v = ['n', 'u', 'l', 'l'] then ⟨.NULLVAL, v⟩
      else ⟨.INVALID, []⟩ := by
  simp only [classify, isValidBoolean, isValidNull, Bool.or_eq_true, decide_eq_true_eq]

/-- C13: when the first character at or after the cursor that is not white space
stands at index `i` and is none of `{`, `}`, `[`, `]`, `:`, `,` and the quote, and `k`
is the least index greater than `i` that holds white space, `,`, `}` or `]` (the length
of the buffer when there is none), `getNextToken` leaves the cursor at `k` and returns
NUMBER when the characters from `i` up to `k` are a valid number, else BOOLEAN when they
are `true` or `false`, else NULLVAL when they are `null`, else INVALID; the text of a
valid token is those characters. The characters `{`, `[`, `:` and the quote do not end
the scan. -/
theorem getNextToken_bare (s : List Char) (p i k : Nat) (c : Char)
    (hfirst : FirstNonWs s p i c)
    (hc : c ≠ '{' ∧ c ≠ '}' ∧ c ≠ '[' ∧ c ≠ ']' ∧ c ≠ ':' ∧ c ≠ ',' ∧ c ≠ '"')
    (hik : i < k) (hk : k ≤ s.length)
    (hgo : ∀ m d, i < m → m < k → s[m]? = some d →
      isWhiteSpace d = false ∧ d ≠ ',' ∧ d ≠ '}' ∧ d ≠ ']')
    (hstop : ∀ d, s[k]? = some d → isWhiteSpace d = true ∨ d = ',' ∨ d = '}' ∨ d = ']') :
    (getNextToken s p).2 = k ∧
      (getNextToken s p).1 =
        if isValidNumber (substr s i (k - i)) = true then ⟨.NUMBER, substr s i (k - i)⟩
        else if substr s i (k - i) = ['t', 'r', 'u', 'e']
            ∨ substr s i (k - i) = ['f', 'a', 'l', 's', 'e'] then
          ⟨.BOOLEAN, substr s i (k - i)⟩
        else if substr s i (k - i) = ['n', 'u', 'l', 'l'] then ⟨.NULLVAL, substr s i (k - i)⟩
        else ⟨.INVALID, []⟩ := by
  obtain ⟨w, hsplit, hwlen, hw, hlt⟩ := firstNonWs_split hfirst
  have hp : p ≤ s.length := by have := hfirst.1; omega
  have hbody : ∀ x ∈ (s.drop (i + 1)).take (k - (i + 1)), bareCont x = true := by
    intro x hx
    obtain ⟨m, hm1, hm2, hm3⟩ := slice_mem s (i + 1) (k - (i + 1)) x hx
    exact bareCont_of_not x (hgo m x (by omega) (by omega) hm3)
  have hrest : s.drop (i + 1) = (s.drop (i + 1)).take (k - (i + 1)) ++ s.drop k := by
    have h1 := (List.take_append_drop (k - (i + 1)) (s.drop (i + 1))).symm
    rw [List.drop_drop] at h1
    have e : i + 1 + (k - (i + 1)) = k := by omega
    rw [e] at h1
    exact h1
  have hr : ∀ d ∈ (s.drop k).head?, bareCont d = false := by
    intro d hd
    have hd' : s[k]? = some d := by
      have : (s.drop k)[0]? = some d := by
        rw [← List.head?_eq_getElem?]; exact hd
      rw [List.getElem?_drop] at this
      simpa using this
    refine (bareCont_false_iff d).2 ?_
    have := hstop d hd'
    simp only [isWhiteSpace, Bool.or_eq_true, beq_iff_eq] at this
    tauto
  have hp' : punctType c = none :=
    (punctType_eq_none_iff c).2 ⟨hc.1, hc.2.1, hc.2.2.1, hc.2.2.2.1, hc.2.2.2.2.1, hc.2.2.2.2.2.1⟩
  have hlex := LexStep.bare w c ((s.drop (i + 1)).take (k - (i + 1))) (s.drop k) hw
    hfirst.2.2.1 hp' hc.2.2.2.2.2.2 hbody hr
  rw [← hrest, ← hsplit] at hlex
  have hval : substr s i (k - i) = c :: (s.drop (i + 1)).take (k - (i + 1)) := by
    have h3 : s.drop i = c :: s.drop (i + 1) := by
      have := drop_split_at s i i c (Nat.le_refl _) hfirst.2.1
      simpa using this
    have e : k - i = (k - (i + 1)) + 1 := by omega
    rw [substr, h3, e, List.take_succ_cons]
  rw [getNextToken_of_lexStep hp hlex, ← hval, List.length_drop, classify_eq]
  exact ⟨by simp only; omega, rfl⟩

/-- C13 at `null{` from cursor 0: one INVALID token, and the cursor is 5. -/
theorem getNextToken_bare_witness :
    FirstNonWs ['n', 'u', 'l', 'l', '{'] 0 0 'n' ∧
      (getNextToken ['n', 'u', 'l', 'l', '{'] 0).2 = 5 ∧
      (getNextToken ['n', 'u', 'l', 'l', '{'] 0).1 = ⟨.INVALID, []⟩ := by
  have h1 : FirstNonWs ['n', 'u', 'l', 'l', '{'] 0 0 'n' :=
    ⟨Nat.le_refl _, rfl, rfl, fun k d _ hk _ => absurd hk (Nat.not_lt_zero k)⟩
  have h2 : ∀ m d, 0 < m → m < 5 → (['n', 'u', 'l', 'l', '{'] : List Char)[m]? = some d →
      isWhiteSpace d = false ∧ d ≠ ',' ∧ d ≠ '}' ∧ d ≠ ']' := by
    intro m d hm0 hm5 hd
    interval_cases m <;> simp at hd <;> subst hd <;> decide
  have h3 : ∀ d, (['n', 'u', 'l', 'l', '{'] : List Char)[5]? = some d →
      isWhiteSpace d = true ∨ d = ',' ∨ d = '}' ∨ d = ']' := by
    intro d hd
    simp at hd
  have := getNextToken_bare ['n', 'u', 'l', 'l', '{'] 0 0 5 'n' h1 (by decide) (by decide)
    (by decide) h2 h3
  exact ⟨h1, this.1, this.2⟩

/-! ## The cursor and the reads of the lexer -/

theorem scanReads_lt (cond : Char → Bool) :
    ∀ (l : List Char) (pos : Nat), ∀ k ∈ scanReads cond l pos, k < pos + l.length := by
  intro l
  induction l with
  | nil => intro pos k hk; simp [scanReads] at hk
  | cons c l ih =>
    intro pos k hk
    simp only [scanReads, List.mem_cons] at hk
    rcases hk with rfl | hk
    · simp
    · split at hk
      · have := ih (pos + 1) k hk
        simp only [List.length_cons]
        omega
      · simp at hk

theorem scanReads_drop_lt (cond : Char → Bool) (json : List Char) (pos : Nat)
    (h : pos ≤ json.length) : ∀ k ∈ scanReads cond (json.drop pos) pos, k < json.length := by
  intro k hk
  have := scanReads_lt cond (json.drop pos) pos k hk
  simp only [List.length_drop] at this
  omega

theorem getNextToken_reads_lt (json : List Char) (pos : Nat) (hp : pos ≤ json.length) :
    ∀ k ∈ getNextToken.reads json pos, k < json.length := by
  have h1 := scanReads_drop_lt isWhiteSpace json pos hp
  have h2 := scanWhile_drop_le isWhiteSpace json pos hp
  intro k hk
  unfold getNextToken.reads at hk
  simp only at hk
  split at hk
  · exact h1 k hk
  · rename_i hne
    have h3 : scanWhile isWhiteSpace (json.drop pos) pos + 1 ≤ json.length := by omega
    have h4 := scanReads_drop_lt (fun c => !isQuote c) json _ h3
    have h5 := scanWhile_drop_le (fun c => !isQuote c) json _ h3
    have h6 := scanReads_drop_lt bareCont json _ h3
    have h7 := scanWhile_drop_le bareCont json _ h3
    split at hk
    · rcases List.mem_append.1 hk with hk | hk
      · exact h1 k hk
      · simp only [List.mem_singleton] at hk
        omega
    · split at hk
      · split at hk
        · simp only [List.mem_append, List.mem_singleton] at hk
          rcases hk with (hk | hk) | hk
          · exact h1 k hk
          · omega
          · exact h4 k hk
        · simp only [List.mem_append, List.mem_singleton, List.mem_range'_1] at hk
          rcases hk with ((hk | hk) | hk) | hk
          · exact h1 k hk
          · omega
          · exact h4 k hk
          · omega
      · simp only [List.mem_append, List.mem_singleton, List.mem_range'_1] at hk
        rcases hk with ((hk | hk) | hk) | hk
        · exact h1 k hk
        · omega
        · exact h6 k hk
        · omega

theorem getNextToken_at_end (json : List Char) :
    getNextToken json json.length = (⟨.INVALID, []⟩, json.length) := by
  simp [getNextToken, scanWhile]

/-- C16: for a cursor `p` inside the buffer or at its end, the cursor after
`getNextToken` is at least `p` and at most the length, every index at which the call
reads the buffer is below the length, and the cursor moves forward when `p` is below
the length. So `length - cursor` goes down with every iteration of the loop of
`isValidJSON`, and the loop returns the same verdict under every bound on its
iterations that is at least `length - cursor`: it is a total function. -/
theorem getNextToken_cursor_progress (s : List Char) (p : Nat) (hp : p ≤ s.length) :
    p ≤ (getNextToken s p).2 ∧ (getNextToken s p).2 ≤ s.length ∧
      (∀ k ∈ getNextToken.reads s p, k < s.length) ∧
      (p < s.length → p < (getNextToken s p).2) ∧
      (p < s.length → s.length - (getNextToken s p).2 < s.length - p) ∧
      ∀ (fuel : Nat) (stack : List TokenType) (h : s.length - p ≤ fuel),
        isValidJSON.loop s fuel p stack h
          = isValidJSON.loop s (s.length - p) p stack (Nat.le_refl _) := by
  refine ⟨?_, ?_, getNextToken_reads_lt s p hp, fun h => (getNextToken_cursor s p h).1, ?_,
    fun fuel stack h => loop_fuel_irrel s _ _ _ _ _ _⟩
  · rcases Nat.lt_or_ge p s.length with h | h
    · exact Nat.le_of_lt (getNextToken_cursor s p h).1
    · have : p = s.length := by omega
      subst this
      rw [getNextToken_at_end]
  · rcases Nat.lt_or_ge p s.length with h | h
    · exact (getNextToken_cursor s p h).2
    · have : p = s.length := by omega
      subst this
      rw [getNextToken_at_end]
  · intro h
    have := getNextToken_cursor s p h
    omega

/-- C16 at blank, `{`, blank from cursor 1. -/
theorem getNextToken_cursor_progress_witness :
    1 ≤ [' ', '{', ' '].length ∧
      (1 ≤ (getNextToken [' ', '{', ' '] 1).2 ∧ (getNextToken [' ', '{', ' '] 1).2 ≤ 3 ∧
        (∀ k ∈ getNextToken.reads [' ', '{', ' '] 1, k < 3) ∧
        (1 < 3 → 1 < (getNextToken [' ', '{', ' '] 1).2)) :=
  ⟨by decide, (getNextToken_cursor_progress [' ', '{', ' '] 1 (by decide)).1,
    (getNextToken_cursor_progress [' ', '{', ' '] 1 (by decide)).2.1,
    (getNextToken_cursor_progress [' ', '{', ' '] 1 (by decide)).2.2.1,
    (getNextToken_cursor_progress [' ', '{', ' '] 1 (by decide)).2.2.2.1⟩

/-! ## The states of the validator -/

theorem reach_invariant {json : List Char} {pos : Nat} {stack : List TokenType}
    {hist : List Token} (h : Reach json pos stack hist) :
    (∀ x ∈ stack, x = .LBRACE ∨ x = .LBRACKET) ∧ stack = openersLeft hist := by
  induction h with
  | start => exact ⟨by simp, rfl⟩
  | push pos stack hist hr hlt hop ih =>
    refine ⟨?_, ?_⟩
    · intro x hx
      rcases List.mem_cons.1 hx with rfl | hx
      · exact hop
      · exact ih.1 x hx
    · simp only [openersLeft, List.foldl_append, List.foldl_cons, List.foldl_nil, isOpener, hop,
        decide_True, ↓reduceIte]
      rw [ih.2]
      rfl
  | pop pos stack hist hr hlt hcl hne ih =>
    refine ⟨fun x hx => ih.1 x (List.mem_of_mem_tail hx), ?_⟩
    have hnop : ¬ ((getNextToken json pos).1.type = .LBRACE
        ∨ (getNextToken json pos).1.type = .LBRACKET) := by
      rcases hcl with h | h <;> simp [h]
    simp only [openersLeft, List.foldl_append, List.foldl_cons, List.foldl_nil, isOpener,
      isCloser, hnop, hcl, decide_True, decide_False, ↓reduceIte, Bool.false_eq_true]
    rw [ih.2]
    rfl
  | other pos stack hist hr hlt hinv hop hcl ih =>
    refine ⟨ih.1, ?_⟩
    simp only [openersLeft, List.foldl_append, List.foldl_cons, List.foldl_nil, isOpener,
      isCloser, hop, hcl, decide_False, ↓reduceIte, Bool.false_eq_true]
    exact ih.2

theorem reach_cursor_le {json : List Char} {pos : Nat} {stack : List TokenType}
    {hist : List Token} (h : Reach json pos stack hist) : pos ≤ json.length := by
  induction h with
  | start => exact Nat.zero_le _
  | push pos stack hist hr hlt hop ih => exact (getNextToken_cursor json _ hlt).2
  | pop pos stack hist hr hlt hcl hne ih => exact (getNextToken_cursor json _ hlt).2
  | other pos stack hist hr hlt hinv hop hcl ih => exact (getNextToken_cursor json _ hlt).2

/-- The states of `Reach` are states of the run of `isValidJSON`: the verdict is what
the loop returns when it is entered in such a state. -/
theorem reach_loop {json : List Char} {pos : Nat} {stack : List TokenType}
    {hist : List Token} (h : Reach json pos stack hist) :
    ∀ (fuel : Nat) (hf : json.length - pos ≤ fuel),
      isValidJSON json = isValidJSON.loop json fuel pos stack hf := by
  induction h with
  | start => intro fuel hf; exact loop_fuel_irrel json _ _ _ _ _ _
  | push pos stack hist hr hlt hop ih =>
    intro fuel hf
    rw [ih (json.length + fuel + 1) (by omega)]
    have hinv : ¬ (getNextToken json pos).1.type = .INVALID := by
      rcases hop with h | h <;> simp [h]
    simp only [isValidJSON.loop, hlt, ↓reduceDIte, hinv, hop, ↓reduceIte]
    exact loop_fuel_irrel json _ _ _ _ _ _
  | pop pos stack hist hr hlt hcl hne ih =>
    intro fuel hf
    rw [ih (json.length + fuel + 1) (by omega)]
    have hinv : ¬ (getNextToken json pos).1.type = .INVALID := by
      rcases hcl with h | h <;> simp [h]
    have hnop : ¬ ((getNextToken json pos).1.type = .LBRACE
        ∨ (getNextToken json pos).1.type = .LBRACKET) := by
      rcases hcl with h | h <;> simp [h]
    simp only [isValidJSON.loop, hlt, ↓reduceDIte, hinv, hnop, hcl, hne, ↓reduceIte,
      Bool.false_eq_true]
    exact loop_fuel_irrel json _ _ _ _ _ _
  | other pos stack hist hr hlt hinv hop hcl ih =>
    intro fuel hf
    rw [ih (json.length + fuel + 1) (by omega)]
    simp only [isValidJSON.loop, hlt, ↓reduceDIte, hinv, hop, hcl, ↓reduceIte]
    exact loop_fuel_irrel json _ _ _ _ _ _

/-- C17: in every state that the loop of `isValidJSON` reaches, every element of the
stack is LBRACE or LBRACKET, and the stack holds the openers read so far that no closer
has popped, the latest on top. So when the stack is not empty the test `top is not a
structural opener` of line 154 is false: that reason to fail never applies. The states
of `Reach` are those of the run: the verdict of `isValidJSON` is what the loop returns
from them. -/
theorem reach_stack_openers (json : List Char) (pos : Nat) (stack : List TokenType)
    (hist : List Token) (h : Reach json pos stack hist) :
    (∀ x ∈ stack, x = .LBRACE ∨ x = .LBRACKET) ∧ stack = openersLeft hist ∧
      (stack.isEmpty = false →
        (stack.head? != some .LBRACE && stack.head? != some .LBRACKET) = false) ∧
      isValidJSON json = isValidJSON.loop json (json.length - pos) pos stack (Nat.le_refl _) := by
  obtain ⟨h1, h2⟩ := reach_invariant h
  refine ⟨h1, h2, ?_, reach_loop h _ _⟩
  intro hne
  cases stack with
  | nil => simp at hne
  | cons x st =>
    rcases h1 x (by simp) with rfl | rfl <;> simp

/-- C17 at the input `[{` after both tokens: the stack is LBRACE on LBRACKET. -/
theorem reach_stack_openers_witness :
    Reach ['[', '{'] 2 [.LBRACE, .LBRACKET] [⟨.LBRACKET, []⟩, ⟨.LBRACE, []⟩] ∧
      ((∀ x ∈ [TokenType.LBRACE, TokenType.LBRACKET], x = .LBRACE ∨ x = .LBRACKET) ∧
        [TokenType.LBRACE, TokenType.LBRACKET]
          = openersLeft [⟨.LBRACKET, []⟩, ⟨.LBRACE, []⟩]) :=
  have hr : Reach ['[', '{'] 2 [.LBRACE, .LBRACKET] [⟨.LBRACKET, []⟩, ⟨.LBRACE, []⟩] :=
    Reach.push 1 [.LBRACKET] [⟨.LBRACKET, []⟩]
      (Reach.push 0 [] [] Reach.start (by decide) (by decide)) (by decide) (by decide)
  ⟨hr, (reach_stack_openers _ _ _ _ hr).1, (reach_stack_openers _ _ _ _ hr).2.1⟩

/-! ## White space at the ends of the input -/

theorem rest_ends_in_ws (a rest : List Char) (x : Char) (hx : isWhiteSpace x = false)
    (hlast : ∀ c ∈ (a ++ x :: rest).getLast?, isWhiteSpace c = true) :
    rest ≠ [] ∧ ∀ c ∈ rest.getLast?, isWhiteSpace c = true := by
  cases rest with
  | nil =>
    have := hlast x (by simp [List.getLast?_append])
    rw [hx] at this
    exact absurd this (by simp)
  | cons y rest =>
    refine ⟨by simp, ?_⟩
    intro c hc
    apply hlast c
    have e : a ++ x :: y :: rest = (a ++ [x]) ++ (y :: rest) := by simp
    rw [e, List.getLast?_append_of_ne_nil _ (by simp)]
    exact hc

/-- A non-empty unread text that ends in white space is rejected, whatever the
stack. -/
theorem validFrom_ends_in_ws : ∀ (n : Nat) (suf : List Char) (stack : List TokenType),
    suf.length ≤ n → suf ≠ [] → (∀ c ∈ suf.getLast?, isWhiteSpace c = true) →
      validFrom suf stack = false := by
  intro n
  induction n with
  | zero =>
    intro suf stack hlen hne _
    exact absurd (List.length_eq_zero.1 (Nat.le_zero.1 hlen)) hne
  | succ n ih =>
    intro suf stack hlen hne hlast
    obtain ⟨tok, rest, hlex⟩ := lexStep_total suf
    have hlt := lexStep_rest_length hlex hne
    rw [validFrom_lexStep hlex hne]
    cases hs : stepStack tok.type stack with
    | none => rfl
    | some stack' =>
      simp only
      have key : rest ≠ [] ∧ ∀ c ∈ rest.getLast?, isWhiteSpace c = true := by
        clear ih hlt hlen hne
        induction hlex with
        | eof w hw => exact absurd hs (by simp [stepStack_invalid])
        | punct w c rest ty hw hc =>
          exact rest_ends_in_ws w rest c (punctType_not_ws c ty hc) hlast
        | string w content rest hw hq =>
          have e : w ++ '"' :: (content ++ '"' :: rest) = (w ++ '"' :: content) ++ '"' :: rest := by
            simp
          rw [e] at hlast
          exact rest_ends_in_ws _ rest '"' (by decide) hlast
        | unterminated w content hw hq => exact absurd hs (by simp [stepStack_invalid])
        | bare w c body rest hw hc hp hcq hb hr =>
          cases hbody : body.reverse with
          | nil =>
            have : body = [] := by simpa using hbody
            subst this
            exact rest_ends_in_ws w rest c hc (by simpa using hlast)
          | cons y ys =>
            have hb' : body = ys.reverse ++ [y] := by
              have := congrArg List.reverse hbody
              simpa using this
            have hy : isWhiteSpace y = false :=
              bareCont_not_ws y (hb y (by rw [hb']; simp))
            have e : w ++ c :: (body ++ rest) = (w ++ c :: ys.reverse) ++ y :: rest := by
              rw [hb']; simp
            rw [e] at hlast
            exact rest_ends_in_ws _ rest y hy hlast
      exact ih rest stack' (by omega) key.1 key.2

/-- C18: an input that ends in one or more white space characters is rejected. -/
theorem isValidJSON_trailing_ws_rejected (s w : List Char) (hne : w ≠ [])
    (hw : ∀ c ∈ w, isWhiteSpace c = true) : isValidJSON (s ++ w) = false := by
  apply validFrom_ends_in_ws (s ++ w).length (s ++ w) [] (Nat.le_refl _)
  · simp [hne]
  · intro c hc
    rw [List.getLast?_append_of_ne_nil _ hne] at hc
    exact hw c (List.mem_of_mem_getLast? hc)

/-- C18 at `{}` followed by a newline and at the input of one blank; the empty input
is accepted. -/
theorem isValidJSON_trailing_ws_rejected_witness :
    (['\n'] ≠ [] ∧ ∀ c ∈ ['\n'], isWhiteSpace c = true) ∧
      isValidJSON (['{', '}'] ++ ['\n']) = false ∧ isValidJSON ([] ++ [' ']) = false ∧
      isValidJSON [] = true :=
  ⟨by decide, isValidJSON_trailing_ws_rejected ['{', '}'] ['\n'] (by decide) (by decide),
    isValidJSON_trailing_ws_rejected [] [' '] (by decide) (by decide), by decide⟩

theorem validFrom_skip_ws (w s : List Char) (stack : List TokenType) (hs : s ≠ [])
    (hw : ∀ c ∈ w, isWhiteSpace c = true) : validFrom (w ++ s) stack = validFrom s stack := by
  rw [validFrom_step (w ++ s) stack (by simp [hs]), validFrom_step s stack hs,
    getNextToken_skip w s hw]
  simp only [List.drop_append]

/-- C19: white space in front of a non-empty input does not change the verdict. -/
theorem isValidJSON_leading_ws_ignored (s w : List Char) (hs : s ≠ [])
    (hw : ∀ c ∈ w, isWhiteSpace c = true) : isValidJSON (w ++ s) = isValidJSON s :=
  validFrom_skip_ws w s [] hs hw

/-- C19 at blank, tab in front of `[]`. -/
theorem isValidJSON_leading_ws_ignored_witness :
    (['[', ']'] ≠ [] ∧ ∀ c ∈ [' ', '\t'], isWhiteSpace c = true) ∧
      isValidJSON ([' ', '\t'] ++ ['[', ']']) = isValidJSON ['[', ']'] :=
  ⟨by decide, isValidJSON_leading_ws_ignored ['[', ']'] [' ', '\t'] (by decide) (by decide)⟩

/-! ## The depth counter -/

theorem loop_eq_depth_loop (json : List Char) :
    ∀ (fuel pos : Nat) (stack : List TokenType) (h : json.length - pos ≤ fuel),
      (∀ x ∈ stack, x = .LBRACE ∨ x = .LBRACKET) →
      isValidJSON.loop json fuel pos stack h
        = isValidJSONDepth.loop json fuel pos stack.length h := by
  intro fuel
  induction fuel with
  | zero =>
    intro pos stack h _
    cases stack <;> simp [isValidJSON.loop, isValidJSONDepth.loop]
  | succ n ih =>
    intro pos stack h hst
    by_cases hlt : pos < json.length
    · simp only [isValidJSON.loop, isValidJSONDepth.loop, hlt, ↓reduceDIte]
      by_cases hinv : (getNextToken json pos).1.type = .INVALID
      · simp only [hinv, ↓reduceIte]
      simp only [hinv, ↓reduceIte]
      by_cases hop : (getNextToken json pos).1.type = .LBRACE
          ∨ (getNextToken json pos).1.type = .LBRACKET
      · simp only [hop, ↓reduceIte]
        refine ih _ _ _ ?_
        intro x hx
        rcases List.mem_cons.1 hx with rfl | hx
        · exact hop
        · exact hst x hx
      simp only [hop, ↓reduceIte]
      by_cases hcl : (getNextToken json pos).1.type = .RBRACE
          ∨ (getNextToken json pos).1.type = .RBRACKET
      · simp only [hcl, ↓reduceIte]
        cases stack with
        | nil => simp
        | cons x st =>
          have hx := hst x (by simp)
          have hcond : ((x :: st).isEmpty
              || ((x :: st).head? != some .LBRACE && (x :: st).head? != some .LBRACKET))
              = false := by
            rcases hx with rfl | rfl <;> simp
          simp only [hcond, Bool.false_eq_true, ↓reduceIte, List.length_cons,
            Nat.add_one_ne_zero, List.tail_cons, Nat.add_sub_cancel]
          exact ih _ _ _ (fun y hy => hst y (List.mem_cons_of_mem _ hy))
      · simp only [hcl, ↓reduceIte]
        exact ih _ _ _ hst
    · simp only [isValidJSON.loop, isValidJSONDepth.loop, hlt, ↓reduceDIte]
      cases stack <;> simp

/-- C20: `isValidJSON` returns what the variant with a depth counter in place of the
stack returns. -/
theorem isValidJSON_eq_depth_counter (s : List Char) : isValidJSON s = isValidJSONDepth s :=
  loop_eq_depth_loop s _ _ [] _ (by simp)

/-! ## The example payload -/

set_option maxRecDepth 100000 in
theorem mainJson_valid : isValidJSON mainJson = true := by
  decide

/-- C11: `isValidJSON` returns true on the example payload of `main`, so the driver
prints `Valid JSON`. -/
theorem isValidJSON_example_payload :
    isValidJSON mainJson = true ∧ mainOutput = "Valid JSON" := by
  refine ⟨mainJson_valid, ?_⟩
  unfold mainOutput
  rw [mainJson_valid]
  rfl

end JSONParser
